import Mathlib

/-!
# KitForge linear-algebra module: a shallow embedding

This file embeds the `kitforge.matrix` module in Lean 4 and proves the
specification's claims about it.  Matrices are lists of rows of rationals
(the exact-arithmetic idealisation of Python floats), vectors are lists of
rationals, and every fallible operation returns `Except Err`.  The error
type collects the abstract error kinds of the specification's taxonomy,
plus `IndexOutOfBounds` standing for Python's `IndexError`, which is not
part of the documented taxonomy.
-/

set_option maxRecDepth 10000

/-- Abstract error kinds.  The first six are the specification's taxonomy;
`IndexOutOfBounds` models a raw Python `IndexError` escaping from an
unguarded list access (it is not a documented error kind). -/
inductive Err where
  | InvalidShape
  | DimensionMismatch
  | ShapeMismatch
  | SingularMatrix
  | InvalidUnit
  | DegenerateTransform
  | IndexOutOfBounds
deriving DecidableEq, Repr

instance {ε α : Type} [DecidableEq ε] [DecidableEq α] : DecidableEq (Except ε α) := fun
  | .error e, .error f =>
    match decEq e f with
    | isTrue h => isTrue (h ▸ rfl)
    | isFalse h => isFalse (fun c => h (Except.error.inj c))
  | .error _, .ok _ => isFalse Except.noConfusion
  | .ok _, .error _ => isFalse Except.noConfusion
  | .ok a, .ok b =>
    match decEq a b with
    | isTrue h => isTrue (h ▸ rfl)
    | isFalse h => isFalse (fun c => h (Except.ok.inj c))

/-- The fixed pivot tolerance `1e-12` of `kitforge.matrix`. -/
def eps : ℚ := 1 / 10 ^ 12

/-- Entry `M[i][j]` of a list-of-rows matrix (0 outside the stored data;
every access the source performs is in bounds). -/
def ent (M : List (List ℚ)) (i j : ℕ) : ℚ := (M.getD i []).getD j 0

/-- `shape(A)`: row and column count, validating rectangularity
(`shape` in matrix.py). -/
def shape (A : List (List ℚ)) : Except Err (ℕ × ℕ) :=
  if A.isEmpty then .error .InvalidShape
  else if (A.headD []).length = 0 then .error .InvalidShape
  else if A.all (fun row => row.length = (A.headD []).length) then
    .ok (A.length, (A.headD []).length)
  else .error .InvalidShape

/-- `identity(n)`: the n×n identity matrix (`identity` in matrix.py builds
it from `zeros` by writing the diagonal; this is the resulting value). -/
def identity (n : ℕ) : List (List ℚ) :=
  (List.range n).map (fun i => (List.range n).map (fun j => if j = i then (1 : ℚ) else 0))

/-- `transpose(A)` (matrix.py): entry (i,j) becomes entry (j,i). -/
def transpose (A : List (List ℚ)) : Except Err (List (List ℚ)) :=
  match shape A with
  | .error e => .error e
  | .ok (r, c) => .ok ((List.range c).map (fun j => (List.range r).map (fun i => ent A i j)))

/-- `matmul(A, B)` (matrix.py): the i,k,j accumulation loop leaves
`out[i][j] = Σ_k A[i][k]*B[k][j]`. -/
def matmul (A B : List (List ℚ)) : Except Err (List (List ℚ)) :=
  match shape A with
  | .error e => .error e
  | .ok (ar, ac) =>
    match shape B with
    | .error e => .error e
    | .ok (br, bc) =>
      if ac ≠ br then .error .DimensionMismatch
      else .ok ((List.range ar).map (fun i =>
        (List.range bc).map (fun j => ∑ k in Finset.range ac, ent A i k * ent B k j)))

/-- `matvec(A, v)` (matrix.py): one dot product per row.  The inner
`dot(row, v)` cannot fail because `shape` has already checked that every
row has length `c = len(v)`. -/
def matvec (A : List (List ℚ)) (v : List ℚ) : Except Err (List ℚ) :=
  match shape A with
  | .error e => .error e
  | .ok (_, c) =>
    if v.length ≠ c then .error .DimensionMismatch
    else .ok (A.map (fun row => ∑ k in Finset.range c, row.getD k 0 * v.getD k 0))

/-- `minor(A, row_to_remove, col_to_remove)` (matrix.py): keep every index
`i` of `range(rows)` with `i != row_to_remove`, and inside each kept row
every `j` of `range(cols)` with `j != col_to_remove`.  The removal indices
are arbitrary Python integers, hence `ℤ` here. -/
def minor (A : List (List ℚ)) (row_to_remove col_to_remove : ℤ) :
    Except Err (List (List ℚ)) :=
  match shape A with
  | .error e => .error e
  | .ok (r, c) => .ok
      (((List.range r).filter (fun (i : ℕ) => (i : ℤ) ≠ row_to_remove)).map (fun i =>
        ((List.range c).filter (fun (j : ℕ) => (j : ℤ) ≠ col_to_remove)).map (fun j => ent A i j)))

example : shape [[1, 2], [3, 4]] = .ok (2, 2) := by with_unfolding_all rfl
example : shape [[1, 2], [3]] = .error .InvalidShape := by with_unfolding_all rfl
example : identity 2 = [[1, 0], [0, 1]] := by with_unfolding_all rfl
example : transpose [[1, 2], [3, 4]] = .ok [[1, 3], [2, 4]] := by with_unfolding_all rfl
example : matmul [[1, 2], [3, 4]] (identity 2) = .ok [[1, 2], [3, 4]] := by
  with_unfolding_all rfl
example : matvec [[1, 2], [3, 4]] [1, 1] = .ok [3, 7] := by with_unfolding_all rfl
example : minor [[1, 2], [3, 4]] 0 0 = .ok [[4]] := by with_unfolding_all rfl

/-!
## Elimination machinery shared by `det`, `solve`, `inverse`

The three routines mutate a working matrix in place in Python; here each
in-place loop becomes a pure function from the old matrix to the new one.
Besides the resulting matrix, the elimination loops also report a `Bool`
flag that is `true` exactly when every elimination factor that fell under
the `abs(factor) < eps` skip was exactly zero (and, for `det`, when no
early singular return was taken): on such runs the skips are no-ops and
the run coincides with exact Gaussian elimination.  The kitforge functions
themselves ignore the flag.
-/

/-- First index `r` in `col..n-1` maximising `abs(M[r][col])`: the scan
both `det`'s explicit loop and Python's `max(range(col, n), key=...)`
perform (ties keep the earliest row). -/
def argmaxAbs (M : List (List ℚ)) (col n : ℕ) : ℕ :=
  (List.range' col (n - col)).foldl
    (fun best r => if |ent M r col| > |ent M best col| then r else best) col

/-- Simultaneous row swap `M[i], M[j] = M[j], M[i]`. -/
def swapRows (M : List (List ℚ)) (i j : ℕ) : List (List ℚ) :=
  (M.set i (M.getD j [])).set j (M.getD i [])

/-- The row left by `for j in range(start, len(row)): row[j] /= p`. -/
def rowDivFrom (row : List ℚ) (start : ℕ) (p : ℚ) : List ℚ :=
  (List.range row.length).map
    (fun j => if start ≤ j then row.getD j 0 / p else row.getD j 0)

/-- The row left by `for j in range(start, len(row)): row[j] -= f * piv[j]`. -/
def rowSubFrom (row piv : List ℚ) (start : ℕ) (f : ℚ) : List ℚ :=
  (List.range row.length).map
    (fun j => if start ≤ j then row.getD j 0 - f * piv.getD j 0 else row.getD j 0)

/-- `solve`'s inner elimination: for each row index `r` in the given list,
`factor = M[r][col]`, skip if `abs(factor) < eps`, otherwise subtract
`factor` times the (already normalised) pivot row from columns `col`
onward.  The `Bool` is `true` iff every skipped factor was zero. -/
def elimRowsSolve (col : ℕ) : List ℕ → List (List ℚ) → List (List ℚ) × Bool
  | [], M => (M, true)
  | r :: rs, M =>
    let f := ent M r col
    if |f| < eps then
      let res := elimRowsSolve col rs M
      (res.1, decide (f = 0) && res.2)
    else
      elimRowsSolve col rs (M.set r (rowSubFrom (M.getD r []) (M.getD col []) col f))

/-- `det`'s inner elimination: `factor = M[r][col] / pivot`, skip if
`abs(factor) < eps`, otherwise subtract `factor` times the (unnormalised)
pivot row from columns `col` onward. -/
def elimRowsDet (col : ℕ) (piv : ℚ) : List ℕ → List (List ℚ) → List (List ℚ) × Bool
  | [], M => (M, true)
  | r :: rs, M =>
    let f := ent M r col / piv
    if |f| < eps then
      let res := elimRowsDet col piv rs M
      (res.1, decide (f = 0) && res.2)
    else
      elimRowsDet col piv rs (M.set r (rowSubFrom (M.getD r []) (M.getD col []) col f))

/-- `inverse`'s inner elimination over every row `r != col`, acting on the
whole augmented row (`for j in range(2*n)`). -/
def elimRowsInv (col : ℕ) : List ℕ → List (List ℚ) → List (List ℚ) × Bool
  | [], M => (M, true)
  | r :: rs, M =>
    if r = col then elimRowsInv col rs M
    else
      let f := ent M r col
      if |f| < eps then
        let res := elimRowsInv col rs M
        (res.1, decide (f = 0) && res.2)
      else
        elimRowsInv col rs (M.set r (rowSubFrom (M.getD r []) (M.getD col []) 0 f))

/-- One column of `det`'s elimination loop followed by the remaining
columns; an early singular return yields `0.0` (flag `false`).  State:
working matrix, accumulated `sign` and `det_val`. -/
def detGo (n : ℕ) : List ℕ → List (List ℚ) → ℚ → ℚ → ℚ × Bool
  | [], _, sign, dv => (sign * dv, true)
  | col :: cs, M, sign, dv =>
    let p := argmaxAbs M col n
    if |ent M p col| < eps then (0, false)
    else
      let M1 := if p ≠ col then swapRows M col p else M
      let sign1 := if p ≠ col then -sign else sign
      let piv := ent M1 col col
      let res := elimRowsDet col piv (List.range' (col + 1) (n - (col + 1))) M1
      let rest := detGo n cs res.1 sign1 (dv * piv)
      (rest.1, res.2 && rest.2)

/-- `det(A)` (matrix.py): Gaussian elimination with partial pivoting;
singular pivot columns give the normal result `0.0`, only a non-square
input is an error. -/
def det (A : List (List ℚ)) : Except Err ℚ :=
  match shape A with
  | .error e => .error e
  | .ok (n, m) =>
    if n ≠ m then .error .ShapeMismatch
    else .ok (detGo n (List.range n) A 1 1).1

/-- `true` iff `det`'s run on `A` performs full exact elimination: no early
singular return and every skipped factor exactly zero. -/
def detClean (n : ℕ) (A : List (List ℚ)) : Bool :=
  (detGo n (List.range n) A 1 1).2

/-- One column of forward elimination in `solve`: partial pivoting (hard
`SingularMatrix` error below tolerance), swap, normalise the pivot row
from `col` on, eliminate the rows below. -/
def solveStep (n col : ℕ) (M : List (List ℚ)) : Except Err (List (List ℚ) × Bool) :=
  let p := argmaxAbs M col n
  if |ent M p col| < eps then .error .SingularMatrix
  else
    let M1 := if p ≠ col then swapRows M col p else M
    let piv := ent M1 col col
    let M2 := M1.set col (rowDivFrom (M1.getD col []) col piv)
    .ok (elimRowsSolve col (List.range' (col + 1) (n - (col + 1))) M2)

/-- One column of `inverse`'s Gauss-Jordan loop: partial pivoting (hard
error), swap, normalise the whole pivot row, eliminate every other row. -/
def invStep (n col : ℕ) (M : List (List ℚ)) : Except Err (List (List ℚ) × Bool) :=
  let p := argmaxAbs M col n
  if |ent M p col| < eps then .error .SingularMatrix
  else
    let M1 := if p ≠ col then swapRows M col p else M
    let piv := ent M1 col col
    let M2 := M1.set col (rowDivFrom (M1.getD col []) 0 piv)
    .ok (elimRowsInv col (List.range n) M2)

/-- Run a per-column step over the listed columns, threading the working
matrix and conjoining the cleanliness flags. -/
def colLoop (step : ℕ → List (List ℚ) → Except Err (List (List ℚ) × Bool)) :
    List ℕ → List (List ℚ) → Bool → Except Err (List (List ℚ) × Bool)
  | [], M, ok => .ok (M, ok)
  | c :: cs, M, ok =>
    match step c M with
    | .error e => .error e
    | .ok r => colLoop step cs r.1 (ok && r.2)

/-- The augmented matrix `[A | b]` that `solve` builds. -/
def augSolve (A : List (List ℚ)) (b : List ℚ) : List (List ℚ) :=
  (List.range A.length).map (fun i => A.getD i [] ++ [b.getD i 0])

/-- Back substitution: `x[i] = M[i][n] - Σ_{j>i} M[i][j]*x[j]`, built from
the last row up; `backSub M n k` is the list `[x_(n-k), ..., x_(n-1)]`. -/
def backSub (M : List (List ℚ)) (n : ℕ) : ℕ → List ℚ
  | 0 => []
  | k + 1 =>
    let tail := backSub M n k
    let i := n - (k + 1)
    (ent M i n -
        ((List.range' (i + 1) k).map (fun j => ent M i j * tail.getD (j - (i + 1)) 0)).sum)
      :: tail

/-- `solve(A, b)` (matrix.py): forward elimination with partial pivoting
and pivot-row normalisation on `[A | b]`, then back substitution. -/
def solve (A : List (List ℚ)) (b : List ℚ) : Except Err (List ℚ) :=
  match shape A with
  | .error e => .error e
  | .ok (n, m) =>
    if n ≠ m then .error .ShapeMismatch
    else if b.length ≠ n then .error .ShapeMismatch
    else
      match colLoop (solveStep n) (List.range n) (augSolve A b) true with
      | .error e => .error e
      | .ok r => .ok (backSub r.1 n n)

/-- The augmented matrix `[A | I]` that `inverse` builds. -/
def augInv (A : List (List ℚ)) (n : ℕ) : List (List ℚ) :=
  (List.range n).map (fun i => A.getD i [] ++ (identity n).getD i [])

/-- `inverse(A)` (matrix.py): Gauss-Jordan reduction of `[A | I]`, the
right halves of the fully reduced rows forming the result. -/
def inverse (A : List (List ℚ)) : Except Err (List (List ℚ)) :=
  match shape A with
  | .error e => .error e
  | .ok (n, m) =>
    if n ≠ m then .error .ShapeMismatch
    else
      match colLoop (invStep n) (List.range n) (augInv A n) true with
      | .error e => .error e
      | .ok r => .ok (r.1.map (fun row => row.drop n))

example : det [[1, 0], [0, 1]] = .ok 1 := by with_unfolding_all rfl
example : det [[2, 0], [0, 2]] = .ok 4 := by with_unfolding_all rfl
example : det [[1, 2], [2, 4]] = .ok 0 := by with_unfolding_all rfl
example : det [[1, 2], [3, 4]] = .ok (-2) := by with_unfolding_all rfl
example : solve [[2, 0], [0, 2]] [4, 6] = .ok [2, 3] := by with_unfolding_all rfl
example : solve [[1, 2], [2, 4]] [1, 1] = .error .SingularMatrix := by
  with_unfolding_all rfl
example : inverse [[1, 2], [2, 4]] = .error .SingularMatrix := by with_unfolding_all rfl
example : inverse [[2, 0], [0, 2]] = .ok [[1/2, 0], [0, 1/2]] := by with_unfolding_all rfl
example : solve [[0, 1], [1, 0]] [5, 7] = .ok [7, 5] := by with_unfolding_all rfl

/-!
## 2D / 3D homogeneous transforms

Python's `math.cos`, `math.sin` and `math.pi` are transcendental, so the
builders are parametrised by an abstract trig interface; everything the
claims discuss (unit validation, the π/180 conversion, matrix layout and
the transform appliers) is independent of the actual trig values.
-/

/-- Abstract stand-in for the parts of Python's `math` module used by the
rotation builders. -/
structure TrigOps where
  cos : ℚ → ℚ
  sin : ℚ → ℚ
  pi : ℚ

/-- `math.radians(x) = x * pi / 180`. -/
def radiansF (ops : TrigOps) (x : ℚ) : ℚ := x * ops.pi / 180

/-- The matrix `rotate_2d` builds once the angle is in radians. -/
def rot2Mat (ops : TrigOps) (t : ℚ) : List (List ℚ) :=
  [[ops.cos t, -ops.sin t, 0], [ops.sin t, ops.cos t, 0], [0, 0, 1]]

/-- `rotate_2d(theta, unit)` (matrix.py): lowercase the unit, convert
degrees via `math.radians`, reject any other unit. -/
def rotate_2d (ops : TrigOps) (theta : ℚ) (unit : String) : Except Err (List (List ℚ)) :=
  if unit.toLower = "degrees" then .ok (rot2Mat ops (radiansF ops theta))
  else if unit.toLower = "radians" then .ok (rot2Mat ops theta)
  else .error .InvalidUnit

/-- The matrix `rotate_x` builds once the angle is in radians. -/
def rotXMat (ops : TrigOps) (t : ℚ) : List (List ℚ) :=
  [[1, 0, 0, 0], [0, ops.cos t, -ops.sin t, 0], [0, ops.sin t, ops.cos t, 0], [0, 0, 0, 1]]

/-- `rotate_x(theta, unit)` (matrix.py). -/
def rotate_x (ops : TrigOps) (theta : ℚ) (unit : String) : Except Err (List (List ℚ)) :=
  if unit.toLower = "degrees" then .ok (rotXMat ops (radiansF ops theta))
  else if unit.toLower = "radians" then .ok (rotXMat ops theta)
  else .error .InvalidUnit

/-- The matrix `rotate_y` builds once the angle is in radians. -/
def rotYMat (ops : TrigOps) (t : ℚ) : List (List ℚ) :=
  [[ops.cos t, 0, ops.sin t, 0], [0, 1, 0, 0], [-ops.sin t, 0, ops.cos t, 0], [0, 0, 0, 1]]

/-- `rotate_y(theta, unit)` (matrix.py). -/
def rotate_y (ops : TrigOps) (theta : ℚ) (unit : String) : Except Err (List (List ℚ)) :=
  if unit.toLower = "degrees" then .ok (rotYMat ops (radiansF ops theta))
  else if unit.toLower = "radians" then .ok (rotYMat ops theta)
  else .error .InvalidUnit

/-- The matrix `rotate_z` builds once the angle is in radians. -/
def rotZMat (ops : TrigOps) (t : ℚ) : List (List ℚ) :=
  [[ops.cos t, -ops.sin t, 0, 0], [ops.sin t, ops.cos t, 0, 0], [0, 0, 1, 0], [0, 0, 0, 1]]

/-- `rotate_z(theta, unit)` (matrix.py). -/
def rotate_z (ops : TrigOps) (theta : ℚ) (unit : String) : Except Err (List (List ℚ)) :=
  if unit.toLower = "degrees" then .ok (rotZMat ops (radiansF ops theta))
  else if unit.toLower = "radians" then .ok (rotZMat ops theta)
  else .error .InvalidUnit

/-- `translate_2d(tx, ty)` (matrix.py). -/
def translate_2d (tx ty : ℚ) : List (List ℚ) :=
  [[1, 0, tx], [0, 1, ty], [0, 0, 1]]

/-- `scale_2d(sx, sy)` (matrix.py) with both factors given. -/
def scale_2d (sx sy : ℚ) : List (List ℚ) :=
  [[sx, 0, 0], [0, sy, 0], [0, 0, 1]]

/-- `translate_3d(tx, ty, tz)` (matrix.py). -/
def translate_3d (tx ty tz : ℚ) : List (List ℚ) :=
  [[1, 0, 0, tx], [0, 1, 0, ty], [0, 0, 1, tz], [0, 0, 0, 1]]

/-- `apply_transform_2d(T, point)` (matrix.py): check the point has two
components, homogenise, multiply, read `out[2]` (an unguarded access:
`IndexOutOfBounds` models the Python `IndexError` when `out` is shorter),
perspective-divide unless `w == 0`. -/
def apply_transform_2d (T : List (List ℚ)) (point : List ℚ) : Except Err (ℚ × ℚ) :=
  if point.length ≠ 2 then .error .ShapeMismatch
  else
    match matvec T [point.getD 0 0, point.getD 1 0, 1] with
    | .error e => .error e
    | .ok out =>
      match out.get? 2 with
      | none => .error .IndexOutOfBounds
      | some w =>
        if w = 0 then .error .DegenerateTransform
        else .ok (out.getD 0 0 / w, out.getD 1 0 / w)

/-- `apply_transform_3d(T, point)` (matrix.py): the 3D analogue, with the
unguarded access at `out[3]`. -/
def apply_transform_3d (T : List (List ℚ)) (point : List ℚ) : Except Err (ℚ × ℚ × ℚ) :=
  if point.length ≠ 3 then .error .ShapeMismatch
  else
    match matvec T [point.getD 0 0, point.getD 1 0, point.getD 2 0, 1] with
    | .error e => .error e
    | .ok out =>
      match out.get? 3 with
      | none => .error .IndexOutOfBounds
      | some w =>
        if w = 0 then .error .DegenerateTransform
        else .ok (out.getD 0 0 / w, out.getD 1 0 / w, out.getD 2 0 / w)

/-- A concrete instantiation of the trig interface, used to evaluate the
builders at concrete inputs. -/
def sampleOps : TrigOps := { cos := fun _ => 1, sin := fun _ => 0, pi := 0 }

example : apply_transform_2d (translate_2d 3 4) [1, 1] = .ok (4, 5) := by
  with_unfolding_all rfl
example : apply_transform_2d [[1, 0, 0], [0, 1, 0]] [5, 7] = .error .IndexOutOfBounds := by
  with_unfolding_all rfl
example : rotate_2d sampleOps 1 "furlongs" = .error .InvalidUnit := by
  with_unfolding_all rfl
example : rotate_2d sampleOps 0 "Degrees" = .ok [[1, 0, 0], [0, 1, 0], [0, 0, 1]] := by
  with_unfolding_all rfl
example : apply_transform_3d (translate_3d 1 2 3) [1, 1, 1] = .ok (2, 3, 4) := by
  with_unfolding_all rfl

/-!
## Basic facts about the embedding
-/

/-- `A` is a well-formed `r × c` matrix. -/
def WF (M : List (List ℚ)) (r c : ℕ) : Prop :=
  M.length = r ∧ ∀ row ∈ M, row.length = c

lemma listSum_range_map (n : ℕ) (f : ℕ → ℚ) :
    ((List.range n).map f).sum = ∑ i in Finset.range n, f i := by
  induction n with
  | zero => simp
  | succ m ih => rw [List.range_succ, Finset.sum_range_succ, List.map_append]; simp [ih]

lemma listSum_range'_map (s k : ℕ) (f : ℕ → ℚ) :
    ((List.range' s k).map f).sum = ∑ i in Finset.Ico s (s + k), f i := by
  induction k generalizing s with
  | zero => simp
  | succ m ih =>
    rw [List.range'_succ, Finset.sum_eq_sum_Ico_succ_bot (by omega)]
    simp only [List.map_cons, List.sum_cons, ih]
    have : s + 1 + m = s + (m + 1) := by omega
    rw [this]

lemma getD_of_lt {α : Type} [Inhabited α] (l : List α) (i : ℕ) (d : α) (h : i < l.length) :
    l.getD i d = l[i] := by
  rw [List.getD_eq_getElem?_getD, List.getElem?_eq_getElem h]; rfl

lemma getD_of_le {α : Type} [Inhabited α] (l : List α) (i : ℕ) (d : α) (h : l.length ≤ i) :
    l.getD i d = d := by
  rw [List.getD_eq_getElem?_getD, List.getElem?_eq_none h]; rfl

lemma getD_rangeMap (n : ℕ) (f : ℕ → ℚ) (j : ℕ) (h : j < n) :
    (((List.range n).map f).getD j 0) = f j := by
  rw [getD_of_lt _ _ _ (by simpa using h)]
  simp

lemma getD_rangeMapRow (n : ℕ) (f : ℕ → List ℚ) (j : ℕ) (h : j < n) :
    (((List.range n).map f).getD j []) = f j := by
  rw [getD_of_lt _ _ _ (by simpa using h)]
  simp

lemma shape_ok_iff (A : List (List ℚ)) (r c : ℕ) :
    shape A = .ok (r, c) ↔ WF A r c ∧ 0 < r ∧ 0 < c := by
  unfold shape WF
  constructor
  · intro h
    split at h
    · exact absurd h (by simp)
    · next hne =>
      split at h
      · exact absurd h (by simp)
      · next hc =>
        split at h
        · next hall =>
          obtain ⟨h1, h2⟩ := Prod.mk.injEq .. ▸ Except.ok.inj h
          subst h1; subst h2
          simp only [List.all_eq_true, decide_eq_true_eq] at hall
          refine ⟨⟨rfl, hall⟩, ?_, Nat.pos_of_ne_zero hc⟩
          simp only [List.isEmpty_iff] at hne
          exact List.length_pos.mpr hne
        · exact absurd h (by simp)
  · rintro ⟨⟨hlen, hrows⟩, hr, hc⟩
    have hne : ¬A.isEmpty = true := by
      simp only [List.isEmpty_iff]
      intro h0; rw [h0] at hlen; simp at hlen; omega
    have hhead : (A.headD []).length = c := by
      cases A with
      | nil => simp at hne
      | cons a l => exact hrows a (by simp)
    rw [if_neg hne, hhead, if_neg (by omega), if_pos, hlen]
    simp only [List.all_eq_true, decide_eq_true_eq]
    exact hrows

lemma WF_ent_getD (M : List (List ℚ)) (r c i : ℕ) (h : WF M r c) (hi : i < r) :
    (M.getD i []).length = c := by
  obtain ⟨hlen, hrows⟩ := h
  rw [getD_of_lt _ _ _ (by omega)]
  exact hrows _ (M.getElem_mem _)

lemma length_rowDivFrom (row : List ℚ) (s : ℕ) (p : ℚ) :
    (rowDivFrom row s p).length = row.length := by simp [rowDivFrom]

lemma length_rowSubFrom (row piv : List ℚ) (s : ℕ) (f : ℚ) :
    (rowSubFrom row piv s f).length = row.length := by simp [rowSubFrom]

lemma getD_rowDivFrom (row : List ℚ) (s : ℕ) (p : ℚ) (j : ℕ) (h : j < row.length) :
    (rowDivFrom row s p).getD j 0 =
      if s ≤ j then row.getD j 0 / p else row.getD j 0 := by
  rw [rowDivFrom, getD_rangeMap _ _ _ h]

lemma getD_rowDivFrom_ge (row : List ℚ) (s : ℕ) (p : ℚ) (j : ℕ) (h : row.length ≤ j) :
    (rowDivFrom row s p).getD j 0 = 0 := by
  exact getD_of_le _ _ _ (by rw [length_rowDivFrom]; exact h)

lemma getD_rowSubFrom (row piv : List ℚ) (s : ℕ) (f : ℚ) (j : ℕ) (h : j < row.length) :
    (rowSubFrom row piv s f).getD j 0 =
      if s ≤ j then row.getD j 0 - f * piv.getD j 0 else row.getD j 0 := by
  rw [rowSubFrom, getD_rangeMap _ _ _ h]

lemma getD_set_row (M : List (List ℚ)) (r : ℕ) (v : List ℚ) (i : ℕ) :
    (M.set r v).getD i [] = if r = i ∧ r < M.length then v else M.getD i [] := by
  by_cases hi : i < M.length
  · rw [getD_of_lt _ _ _ (by simpa using hi)]
    rw [List.getElem_set]
    by_cases hri : r = i
    · subst hri; simp [hi, getD_of_lt _ _ _ hi]
    · simp only [hri, if_false, false_and]
      rw [getD_of_lt _ _ _ hi]
  · have : ¬(r = i ∧ r < M.length) := by rintro ⟨rfl, h⟩; exact hi h
    rw [if_neg this, getD_of_le _ _ _ (by simpa using Nat.le_of_not_lt hi),
      getD_of_le _ _ _ (Nat.le_of_not_lt hi)]

lemma length_swapRows (M : List (List ℚ)) (i j : ℕ) :
    (swapRows M i j).length = M.length := by simp [swapRows]

lemma getD_swapRows (M : List (List ℚ)) (i j a : ℕ) (hi : i < M.length) (hj : j < M.length) :
    (swapRows M i j).getD a [] =
      if a = j then M.getD i [] else if a = i then M.getD j [] else M.getD a [] := by
  unfold swapRows
  rw [getD_set_row, getD_set_row]
  by_cases haj : a = j
  · subst haj; simp [hj, List.length_set]
  · rw [if_neg (fun h => haj h.1.symm), if_neg haj]
    by_cases hai : a = i
    · subst hai; simp [hi]
    · rw [if_neg (fun h => hai h.1.symm), if_neg hai]

lemma WF_set (M : List (List ℚ)) (r c k : ℕ) (v : List ℚ) (h : WF M r c)
    (hv : v.length = c) : WF (M.set k v) r c := by
  obtain ⟨hlen, hrows⟩ := h
  refine ⟨by simpa using hlen, fun row hrow => ?_⟩
  rcases List.mem_or_eq_of_mem_set hrow with h' | h'
  · exact hrows _ h'
  · rw [h']; exact hv

lemma WF_swapRows (M : List (List ℚ)) (r c i j : ℕ) (h : WF M r c)
    (hi : i < r) (hj : j < r) : WF (swapRows M i j) r c := by
  have hlen := h.1
  refine WF_set _ _ _ _ _ (WF_set _ _ _ _ _ h ?_) ?_
  · rw [WF_ent_getD M r c j h hj]
  · have h2 : WF (M.set i (M.getD j [])) r c :=
      WF_set _ _ _ _ _ h (WF_ent_getD M r c j h hj)
    rw [WF_ent_getD M r c i h hi]

lemma listExt_getD (a b : List ℚ) (hl : a.length = b.length)
    (h : ∀ i, i < a.length → a.getD i 0 = b.getD i 0) : a = b := by
  refine List.ext_getElem hl (fun i h1 h2 => ?_)
  have := h i h1
  rwa [getD_of_lt _ _ _ h1, getD_of_lt _ _ _ h2] at this

lemma matExt_getD (a b : List (List ℚ)) (hl : a.length = b.length)
    (h : ∀ i, i < a.length → a.getD i [] = b.getD i []) : a = b := by
  refine List.ext_getElem hl (fun i h1 h2 => ?_)
  have := h i h1
  rwa [getD_of_lt _ _ _ h1, getD_of_lt _ _ _ h2] at this

lemma argmax_fold_prop (M : List (List ℚ)) (col : ℕ) (P : ℕ → Prop) :
    ∀ (l : List ℕ) (best : ℕ), P best → (∀ x ∈ l, P x) →
      P (l.foldl (fun b r => if |ent M r col| > |ent M b col| then r else b) best) := by
  intro l
  induction l with
  | nil => intro best hb _; exact hb
  | cons x xs ih =>
    intro best hb hl
    simp only [List.foldl_cons]
    apply ih
    · by_cases hx : |ent M x col| > |ent M best col|
      · rw [if_pos hx]; exact hl x (by simp)
      · rw [if_neg hx]; exact hb
    · intro y hy; exact hl y (by simp [hy])

lemma argmaxAbs_bounds (M : List (List ℚ)) (col n : ℕ) (h : col < n) :
    col ≤ argmaxAbs M col n ∧ argmaxAbs M col n < n := by
  unfold argmaxAbs
  apply argmax_fold_prop M col (fun x => col ≤ x ∧ x < n)
  · exact ⟨Nat.le_refl _, h⟩
  · intro x hx
    rw [List.mem_range'_1] at hx
    omega

/-- C3 first part: `det` succeeds on every square well-formed matrix. -/
lemma det_ok_of_square (A : List (List ℚ)) (r c : ℕ)
    (h : shape A = .ok (r, c)) (hrc : r = c) : ∃ q, det A = .ok q := by
  subst hrc
  refine ⟨(detGo r (List.range r) A 1 1).1, ?_⟩
  unfold det
  rw [h]
  simp

/-- C3 second part: a pivot column whose candidates are all below the
tolerance makes `detGo` return `0.0` at once. -/
lemma detGo_singular_zero (n : ℕ) (M : List (List ℚ)) (sign dv : ℚ) (col : ℕ)
    (cs : List ℕ) (hcol : col < n)
    (hsmall : ∀ r, col ≤ r → r < n → |ent M r col| < eps) :
    (detGo n (col :: cs) M sign dv).1 = 0 := by
  obtain ⟨h1, h2⟩ := argmaxAbs_bounds M col n hcol
  unfold detGo
  rw [if_pos (hsmall _ h1 h2)]

/-- C3: `det` never fails on square input; if at some elimination column
no candidate row reaches the `1e-12` tolerance in absolute value, the
loop returns `0.0` at once as a normal result; and
`det([[1,2],[2,4]]) == 0.0`, `det([[1,0],[0,1]]) == 1.0`,
`det([[2,0],[0,2]]) == 4.0`. -/
theorem det_total_and_singular_zero :
    (∀ (A : List (List ℚ)) (r c : ℕ), shape A = .ok (r, c) → r = c →
      ∃ q, det A = .ok q) ∧
    (∀ (n : ℕ) (M : List (List ℚ)) (sign dv : ℚ) (col : ℕ) (cs : List ℕ),
      col < n → (∀ r, col ≤ r → r < n → |ent M r col| < eps) →
      (detGo n (col :: cs) M sign dv).1 = 0) ∧
    det [[1, 2], [2, 4]] = .ok 0 ∧
    det [[1, 0], [0, 1]] = .ok 1 ∧
    det [[2, 0], [0, 2]] = .ok 4 := by
  refine ⟨det_ok_of_square, ?_, ?_, ?_, ?_⟩
  · intro n M sign dv col cs h1 h2
    exact detGo_singular_zero n M sign dv col cs h1 h2
  · with_unfolding_all rfl
  · with_unfolding_all rfl
  · with_unfolding_all rfl

/-- Witness for C3 at concrete inputs: the square matrix `[[7]]` gets a
defined determinant, and a state whose only candidate pivot is `0`
returns `0.0`. -/
theorem det_total_and_singular_zero_witness :
    (∃ q, det [[7]] = .ok q) ∧ (detGo 1 [0] [[0]] 1 1).1 = 0 := by
  constructor
  · exact det_total_and_singular_zero.1 [[7]] 1 1 (by with_unfolding_all rfl) rfl
  · refine det_total_and_singular_zero.2.1 1 [[0]] 1 1 0 [] (by omega) ?_
    intro r h1 h2
    have : r = 0 := by omega
    subst this
    show |ent [[0]] 0 0| < eps
    with_unfolding_all decide

/-- C4: during `solve`/`inverse`-style Gauss-Jordan elimination, a column
whose remaining candidates are all below the `1e-12` tolerance aborts the
whole loop with the hard `SingularMatrix` error, and concretely
`inverse([[1,2],[2,4]])` fails with `SingularMatrix`. -/
theorem inverse_singular_matrix_error :
    (∀ (n col : ℕ) (cs : List ℕ) (M : List (List ℚ)) (acc : Bool),
      col < n → (∀ r, col ≤ r → r < n → |ent M r col| < eps) →
      colLoop (invStep n) (col :: cs) M acc = .error .SingularMatrix) ∧
    inverse [[1, 2], [2, 4]] = .error .SingularMatrix := by
  constructor
  · intro n col cs M acc hcol hsmall
    obtain ⟨h1, h2⟩ := argmaxAbs_bounds M col n hcol
    show (match invStep n col M with
      | Except.error e => Except.error e
      | Except.ok r => colLoop (invStep n) cs r.1 (acc && r.2)) = Except.error Err.SingularMatrix
    unfold invStep
    rw [if_pos (hsmall _ h1 h2)]
  · with_unfolding_all rfl

/-- Witness for C4: a concrete singular state aborts with
`SingularMatrix`. -/
theorem inverse_singular_matrix_error_witness :
    colLoop (invStep 1) [0] [[0, 1]] true = .error .SingularMatrix := by
  refine inverse_singular_matrix_error.1 1 0 [] [[0, 1]] true (by omega) ?_
  intro r h1 h2
  have : r = 0 := by omega
  subst this
  show |ent [[0, 1]] 0 0| < eps
  with_unfolding_all decide

/-- C1 counterexample: all pivots clear the tolerance (`solve` succeeds),
yet because the elimination factor `9e-13` is skipped as below-tolerance,
the returned vector fails to reconstruct `b` exactly — the residual
`9e-7` even exceeds the spec's illustrative `1e-9` round-off budget. -/
theorem solve_reconstruction_counterexample :
    solve [[1 / 1000000, 0], [9 / 10000000000000, 1]] [1, 0] = .ok [1000000, 0] ∧
    matvec [[1 / 1000000, 0], [9 / 10000000000000, 1]] [1000000, 0] =
      .ok [1, 9 / 10000000] ∧
    ([1, 9 / 10000000] : List ℚ) ≠ [1, 0] ∧
    (9 / 10000000 : ℚ) > 1 / 1000000000 := by
  refine ⟨?_, ?_, ?_, ?_⟩
  · with_unfolding_all rfl
  · with_unfolding_all rfl
  · with_unfolding_all decide
  · with_unfolding_all decide

/-- C2 counterexample: `inverse` succeeds on this matrix (every pivot
clears the tolerance), yet `matmul(A, inverse(A))` differs from the
identity by `9e-7 > 1e-9`, because the `9e-13` elimination factor was
skipped. -/
theorem inverse_identity_counterexample :
    inverse [[1 / 1000000, 0], [9 / 10000000000000, 1]] = .ok [[1000000, 0], [0, 1]] ∧
    matmul [[1 / 1000000, 0], [9 / 10000000000000, 1]] [[1000000, 0], [0, 1]] =
      .ok [[1, 0], [9 / 10000000, 1]] ∧
    ([[1, 0], [9 / 10000000, 1]] : List (List ℚ)) ≠ identity 2 ∧
    (9 / 10000000 : ℚ) > 1 / 1000000000 := by
  refine ⟨?_, ?_, ?_, ?_⟩
  · with_unfolding_all rfl
  · with_unfolding_all rfl
  · with_unfolding_all decide
  · with_unfolding_all decide

/-- C5 counterexample: the `1e-13` entry is eliminated exactly on one
side but skipped as a below-tolerance factor on the transposed side, so
`det(A)` and `det(transpose(A))` disagree. -/
theorem det_transpose_counterexample :
    det [[1, 1 / 10000000000000], [1, 1]] = .ok (9999999999999 / 10000000000000) ∧
    transpose [[1, 1 / 10000000000000], [1, 1]] = .ok [[1, 1], [1 / 10000000000000, 1]] ∧
    det [[1, 1], [1 / 10000000000000, 1]] = .ok 1 ∧
    (9999999999999 / 10000000000000 : ℚ) ≠ 1 := by
  refine ⟨?_, ?_, ?_, ?_⟩
  · with_unfolding_all rfl
  · with_unfolding_all rfl
  · with_unfolding_all rfl
  · with_unfolding_all decide

/-- C10: `apply_transform_2d` never validates the shape of `T`; with the
well-formed 2×3 matrix `[[1,0,0],[0,1,0]]` the product vector has length
2 and the unguarded `out[2]` access raises a bare `IndexError`
(`IndexOutOfBounds`), which is outside the documented error taxonomy; the
same happens in `apply_transform_3d` at `out[3]` for a 3×4 matrix. -/
theorem apply_transform_unguarded_access (x y z : ℚ) :
    apply_transform_2d [[1, 0, 0], [0, 1, 0]] [x, y] = .error .IndexOutOfBounds ∧
    apply_transform_3d [[1, 0, 0, 0], [0, 1, 0, 0], [0, 0, 1, 0]] [x, y, z] =
      .error .IndexOutOfBounds ∧
    (Err.IndexOutOfBounds ∉ [Err.InvalidShape, Err.DimensionMismatch, Err.ShapeMismatch,
      Err.SingularMatrix, Err.InvalidUnit, Err.DegenerateTransform]) := by
  refine ⟨rfl, rfl, by decide⟩

/-- C8 (amended: the unit string is lowercased first): a unit whose
lowercase form is neither `"degrees"` nor `"radians"` makes every
rotation builder fail with `InvalidUnit`, and `"degrees"` converts the
angle by `theta * pi / 180` before building the matrix. -/
theorem rotate_unit_handling (ops : TrigOps) (theta : ℚ) (unit : String) :
    (unit.toLower ≠ "degrees" → unit.toLower ≠ "radians" →
      rotate_2d ops theta unit = .error .InvalidUnit ∧
      rotate_x ops theta unit = .error .InvalidUnit ∧
      rotate_y ops theta unit = .error .InvalidUnit ∧
      rotate_z ops theta unit = .error .InvalidUnit) ∧
    (rotate_2d ops theta "degrees" = .ok (rot2Mat ops (theta * ops.pi / 180)) ∧
     rotate_x ops theta "degrees" = .ok (rotXMat ops (theta * ops.pi / 180)) ∧
     rotate_y ops theta "degrees" = .ok (rotYMat ops (theta * ops.pi / 180)) ∧
     rotate_z ops theta "degrees" = .ok (rotZMat ops (theta * ops.pi / 180))) := by
  have hdeg : "degrees".toLower = "degrees" := by with_unfolding_all rfl
  constructor
  · intro h1 h2
    refine ⟨?_, ?_, ?_, ?_⟩ <;>
      simp only [rotate_2d, rotate_x, rotate_y, rotate_z, if_neg h1, if_neg h2]
  · refine ⟨?_, ?_, ?_, ?_⟩ <;>
      simp only [rotate_2d, rotate_x, rotate_y, rotate_z, hdeg, if_pos, radiansF]

/-- Witness for C8 at concrete inputs: the unit `"furlongs"` is rejected
and `"degrees"` triggers the π/180 conversion. -/
theorem rotate_unit_handling_witness :
    rotate_2d sampleOps 1 "furlongs" = .error .InvalidUnit ∧
    rotate_2d sampleOps 1 "degrees" = .ok (rot2Mat sampleOps (1 * sampleOps.pi / 180)) := by
  constructor
  · exact ((rotate_unit_handling sampleOps 1 "furlongs").1
      (by with_unfolding_all decide) (by with_unfolding_all decide)).1
  · exact (rotate_unit_handling sampleOps 1 "degrees").2.1

/-- C8 counterexample: the claim as stated quantifies over the literal
strings `"degrees"`/`"radians"`, but the code lowercases the unit first:
`"Degrees"` is neither literal, yet the builder succeeds instead of
failing with `InvalidUnit`. -/
theorem rotate_unit_counterexample :
    ("Degrees" ≠ "degrees") ∧ ("Degrees" ≠ "radians") ∧
    rotate_2d sampleOps 0 "Degrees" = .ok [[1, 0, 0], [0, 1, 0], [0, 0, 1]] ∧
    rotate_2d sampleOps 0 "Degrees" ≠ .error .InvalidUnit := by
  refine ⟨by with_unfolding_all decide, by with_unfolding_all decide,
    by with_unfolding_all rfl, ?_⟩
  intro h
  rw [show rotate_2d sampleOps 0 "Degrees" = .ok [[1, 0, 0], [0, 1, 0], [0, 0, 1]] from
    by with_unfolding_all rfl] at h
  exact Except.noConfusion h

lemma filter_range_all_kept (n : ℕ) (t : ℤ) (h : t < 0 ∨ (n : ℤ) ≤ t) :
    (List.range n).filter (fun (i : ℕ) => (i : ℤ) ≠ t) = List.range n := by
  apply List.filter_eq_self.mpr
  intro a ha
  rw [List.mem_range] at ha
  simp only [ne_eq, decide_eq_true_eq]
  intro hat
  rcases h with h | h <;> omega

lemma rangeMap_ent_row (A : List (List ℚ)) (r c i : ℕ) (hWF : WF A r c) (hi : i < r) :
    (List.range c).map (fun j => ent A i j) = A.getD i [] := by
  apply listExt_getD
  · rw [List.length_map, List.length_range, WF_ent_getD A r c i hWF hi]
  · intro j hj
    simp only [List.length_map, List.length_range] at hj
    rw [getD_rangeMap _ _ _ hj]
    rfl

lemma rangeMap_rows (A : List (List ℚ)) (r c : ℕ) (hWF : WF A r c) :
    (List.range r).map (fun i => A.getD i []) = A := by
  apply matExt_getD
  · simp [hWF.1]
  · intro i hi
    simp only [List.length_map, List.length_range] at hi
    rw [getD_rangeMapRow _ _ _ hi]

/-- C9: `minor` never bounds-checks its removal indices.  With the row
index out of `0..rows-1` every row survives (each with the column filter
applied); with the column index out of `0..cols-1` every surviving row is
a full copy; with both out of range the result is a full copy of `A`. -/
theorem minor_out_of_range_total (A : List (List ℚ)) (rr cc : ℤ) (r c : ℕ)
    (h : shape A = .ok (r, c)) :
    ((rr < 0 ∨ (r : ℤ) ≤ rr) →
      minor A rr cc = .ok (A.map (fun row =>
        ((List.range c).filter (fun (j : ℕ) => (j : ℤ) ≠ cc)).map (fun j => row.getD j 0)))) ∧
    ((cc < 0 ∨ (c : ℤ) ≤ cc) →
      minor A rr cc = .ok (((List.range r).filter (fun (i : ℕ) => (i : ℤ) ≠ rr)).map
        (fun i => A.getD i []))) ∧
    ((rr < 0 ∨ (r : ℤ) ≤ rr) → (cc < 0 ∨ (c : ℤ) ≤ cc) → minor A rr cc = .ok A) := by
  obtain ⟨hWF, hr, hc⟩ := (shape_ok_iff A r c).1 h
  have hminor : minor A rr cc = .ok
      (((List.range r).filter (fun (i : ℕ) => (i : ℤ) ≠ rr)).map (fun i =>
        ((List.range c).filter (fun (j : ℕ) => (j : ℤ) ≠ cc)).map (fun j => ent A i j))) := by
    unfold minor
    rw [h]
  refine ⟨?_, ?_, ?_⟩
  · intro hrow
    rw [hminor, filter_range_all_kept r rr hrow]
    congr 1
    conv_rhs => rw [← rangeMap_rows A r c hWF, List.map_map]
    rfl
  · intro hcol
    rw [hminor, filter_range_all_kept c cc hcol]
    congr 1
    apply List.map_congr_left
    intro i hi
    rw [List.mem_filter, List.mem_range] at hi
    exact rangeMap_ent_row A r c i hWF hi.1
  · intro hrow hcol
    rw [hminor, filter_range_all_kept r rr hrow, filter_range_all_kept c cc hcol]
    congr 1
    have h1 : (List.range r).map (fun i => (List.range c).map (fun j => ent A i j)) =
        (List.range r).map (fun i => A.getD i []) :=
      List.map_congr_left (fun i hi => rangeMap_ent_row A r c i hWF (List.mem_range.mp hi))
    rw [h1, rangeMap_rows A r c hWF]

/-- Witness for C9: out-of-range indices `5` and `-1` on a 2×2 matrix
return the matrix unchanged. -/
theorem minor_out_of_range_total_witness :
    minor [[1, 2], [3, 4]] 5 (-1) = .ok [[1, 2], [3, 4]] := by
  refine (minor_out_of_range_total [[1, 2], [3, 4]] 5 (-1) 2 2 ?_).2.2 ?_ ?_
  · with_unfolding_all rfl
  · right; omega
  · left; omega

lemma map_getD_row (T : List (List ℚ)) (f : List ℚ → ℚ) (i : ℕ) (hi : i < T.length) :
    (T.map f).getD i 0 = f (T.getD i []) := by
  rw [getD_of_lt _ _ _ (by simpa using hi), List.getElem_map, getD_of_lt _ _ _ hi]

lemma map_get?_row (T : List (List ℚ)) (f : List ℚ → ℚ) (i : ℕ) (hi : i < T.length) :
    (T.map f).get? i = some (f (T.getD i [])) := by
  rw [List.get?_eq_getElem?, List.getElem?_map, List.getElem?_eq_getElem hi,
    getD_of_lt _ _ _ hi]
  rfl

lemma dot3 (row : List ℚ) (x y : ℚ) :
    ∑ k in Finset.range 3, row.getD k 0 * ([x, y, 1] : List ℚ).getD k 0 =
      row.getD 0 0 * x + row.getD 1 0 * y + row.getD 2 0 := by
  rw [Finset.sum_range_succ, Finset.sum_range_succ, Finset.sum_range_succ,
    Finset.sum_range_zero]
  show 0 + row.getD 0 0 * x + row.getD 1 0 * y + row.getD 2 0 * 1 = _
  ring

theorem apply2d_middle (T : List (List ℚ)) (x y : ℚ) (hT : shape T = .ok (3, 3)) :
    apply_transform_2d T [x, y] =
      (if ent T 2 0 * x + ent T 2 1 * y + ent T 2 2 = 0 then .error .DegenerateTransform
       else .ok
        ((ent T 0 0 * x + ent T 0 1 * y + ent T 0 2) /
            (ent T 2 0 * x + ent T 2 1 * y + ent T 2 2),
          (ent T 1 0 * x + ent T 1 1 * y + ent T 1 2) /
            (ent T 2 0 * x + ent T 2 1 * y + ent T 2 2))) := by
  have hlen : T.length = 3 := ((shape_ok_iff T 3 3).1 hT).1.1
  have hmv : matvec T [x, y, 1] = .ok (T.map (fun (row : List ℚ) =>
      ∑ k in Finset.range 3, row.getD k 0 * ([x, y, 1] : List ℚ).getD k 0)) := by
    unfold matvec
    rw [hT]
    show (if ([x, y, 1] : List ℚ).length ≠ 3 then Except.error Err.DimensionMismatch
      else Except.ok (T.map fun row =>
        ∑ k in Finset.range 3, row.getD k 0 * ([x, y, 1] : List ℚ).getD k 0)) = _
    rw [if_neg (show ¬([x, y, 1] : List ℚ).length ≠ 3 from by norm_num)]
  unfold apply_transform_2d
  rw [if_neg (show ¬([x, y] : List ℚ).length ≠ 2 from by norm_num)]
  show (match matvec T [x, y, 1] with
    | Except.error e => Except.error e
    | Except.ok out =>
      match out.get? 2 with
      | none => Except.error Err.IndexOutOfBounds
      | some w =>
        if w = 0 then Except.error Err.DegenerateTransform
        else Except.ok (out.getD 0 0 / w, out.getD 1 0 / w)) = _
  rw [hmv]
  show (match (T.map (fun (row : List ℚ) =>
      ∑ k in Finset.range 3, row.getD k 0 * ([x, y, 1] : List ℚ).getD k 0)).get? 2 with
    | none => Except.error Err.IndexOutOfBounds
    | some w =>
      if w = 0 then Except.error Err.DegenerateTransform
      else Except.ok ((T.map (fun (row : List ℚ) =>
          ∑ k in Finset.range 3, row.getD k 0 * ([x, y, 1] : List ℚ).getD k 0)).getD 0 0 / w,
        (T.map (fun (row : List ℚ) =>
          ∑ k in Finset.range 3, row.getD k 0 * ([x, y, 1] : List ℚ).getD k 0)).getD 1 0 / w)) = _
  rw [map_get?_row _ _ 2 (by omega), map_getD_row _ _ 0 (by omega),
    map_getD_row _ _ 1 (by omega)]
  show (if (∑ k in Finset.range 3,
      (T.getD 2 []).getD k 0 * ([x, y, 1] : List ℚ).getD k 0) = 0 then
        Except.error Err.DegenerateTransform
      else _) = _
  rw [dot3, dot3, dot3]
  rfl

/-- C7: `apply_transform_2d` rejects points that are not pairs with
`ShapeMismatch`; on a 3×3 transform it homogenises `(x, y)` to
`[x, y, 1]`, multiplies by `T`, fails with `DegenerateTransform` exactly
when the homogeneous coordinate `w` is zero and otherwise returns the
first two components divided by `w`; and
`apply_transform_2d(translate_2d(3,4), (1,1)) == (4.0, 5.0)`. -/
theorem apply_transform_2d_spec :
    (∀ (T : List (List ℚ)) (p : List ℚ), p.length ≠ 2 →
      apply_transform_2d T p = .error .ShapeMismatch) ∧
    (∀ (T : List (List ℚ)) (x y : ℚ), shape T = .ok (3, 3) →
      apply_transform_2d T [x, y] =
        (if ent T 2 0 * x + ent T 2 1 * y + ent T 2 2 = 0 then .error .DegenerateTransform
         else .ok
          ((ent T 0 0 * x + ent T 0 1 * y + ent T 0 2) /
              (ent T 2 0 * x + ent T 2 1 * y + ent T 2 2),
            (ent T 1 0 * x + ent T 1 1 * y + ent T 1 2) /
              (ent T 2 0 * x + ent T 2 1 * y + ent T 2 2)))) ∧
    apply_transform_2d (translate_2d 3 4) [1, 1] = .ok (4, 5) := by
  refine ⟨?_, fun T x y hT => apply2d_middle T x y hT, by with_unfolding_all rfl⟩
  intro T p hp
  unfold apply_transform_2d
  rw [if_pos hp]

/-- Witness for C7: a one-component point is rejected, and the translate
matrix sends `(1,1)` to the stated perspective-divided pair. -/
theorem apply_transform_2d_spec_witness :
    apply_transform_2d [[1, 1]] [1] = .error .ShapeMismatch ∧
    apply_transform_2d (translate_2d 3 4) [1, 1] =
      (if ent (translate_2d 3 4) 2 0 * 1 + ent (translate_2d 3 4) 2 1 * 1 +
          ent (translate_2d 3 4) 2 2 = 0 then .error .DegenerateTransform
       else .ok
        ((ent (translate_2d 3 4) 0 0 * 1 + ent (translate_2d 3 4) 0 1 * 1 +
            ent (translate_2d 3 4) 0 2) /
          (ent (translate_2d 3 4) 2 0 * 1 + ent (translate_2d 3 4) 2 1 * 1 +
            ent (translate_2d 3 4) 2 2),
          (ent (translate_2d 3 4) 1 0 * 1 + ent (translate_2d 3 4) 1 1 * 1 +
            ent (translate_2d 3 4) 1 2) /
          (ent (translate_2d 3 4) 2 0 * 1 + ent (translate_2d 3 4) 2 1 * 1 +
            ent (translate_2d 3 4) 2 2))) := by
  constructor
  · exact apply_transform_2d_spec.1 [[1, 1]] [1] (by norm_num)
  · exact apply_transform_2d_spec.2.1 (translate_2d 3 4) 1 1 (by with_unfolding_all rfl)

/-!
## Correctness of `solve` (claim C1)

Semantic layer: `x` solves the augmented system `M` (first `n` columns of
coefficients, column `n` the right-hand side) when every row equation
holds.  Row operations preserve the solution set; on flag-clean runs the
forward elimination leaves a unit upper triangular system which back
substitution solves exactly.
-/

/-- Row `i`'s equation of the augmented system. -/
def rowEqn (M : List (List ℚ)) (n i : ℕ) (x : List ℚ) : Prop :=
  ∑ j in Finset.range n, ent M i j * x.getD j 0 = ent M i n

/-- `x` satisfies every row equation of the augmented system `M`. -/
def SolvesAug (M : List (List ℚ)) (n : ℕ) (x : List ℚ) : Prop :=
  ∀ i, i < n → rowEqn M n i x

/-- Columns before `col` already have a unit pivot. -/
def DiagOne (M : List (List ℚ)) (col : ℕ) : Prop :=
  ∀ j, j < col → ent M j j = 1

/-- Columns before `col` are zero strictly below the diagonal. -/
def LowerZero (M : List (List ℚ)) (n col : ℕ) : Prop :=
  ∀ r j, j < col → j < r → r < n → ent M r j = 0

lemma sum_range_split (n col : ℕ) (h : col ≤ n) (f : ℕ → ℚ) :
    ∑ j in Finset.range n, f j =
      (∑ j in Finset.Ico 0 col, f j) + ∑ j in Finset.Ico col n, f j := by
  rw [Finset.range_eq_Ico, Finset.sum_Ico_consecutive _ (Nat.zero_le col) h]

lemma ent_swapRows (M : List (List ℚ)) (col p i j : ℕ) (hc : col < M.length)
    (hp : p < M.length) :
    ent (swapRows M col p) i j =
      ent M (if i = p then col else if i = col then p else i) j := by
  unfold ent
  rw [getD_swapRows M col p i hc hp]
  by_cases h1 : i = p
  · rw [if_pos h1, if_pos h1]
  · rw [if_neg h1, if_neg h1]
    by_cases h2 : i = col
    · rw [if_pos h2, if_pos h2]
    · rw [if_neg h2, if_neg h2]

lemma solvesAug_swap (M : List (List ℚ)) (n col p : ℕ) (hlen : M.length = n)
    (hcol : col < n) (hp : p < n) (x : List ℚ) :
    SolvesAug (swapRows M col p) n x ↔ SolvesAug M n x := by
  have hent := fun i j => ent_swapRows M col p i j (by omega) (by omega)
  have hrow : ∀ i, rowEqn (swapRows M col p) n i x ↔
      rowEqn M n (if i = p then col else if i = col then p else i) x := by
    intro i
    unfold rowEqn
    rw [hent i n, Finset.sum_congr rfl (fun j _ => by rw [hent i j])]
  constructor
  · intro h i hi
    have hs : (if i = col then p else if i = p then col else i) < n := by
      split_ifs <;> omega
    have h2 := (hrow _).1 (h _ hs)
    have hidx : (if (if i = col then p else if i = p then col else i) = p then col
        else if (if i = col then p else if i = p then col else i) = col then p
        else (if i = col then p else if i = p then col else i)) = i := by
      split_ifs <;> omega
    rwa [hidx] at h2
  · intro h i hi
    rw [hrow i]
    refine h _ ?_
    split_ifs <;> omega

lemma ent_set_row (M : List (List ℚ)) (r : ℕ) (v : List ℚ) (i j : ℕ)
    (hr : r < M.length) :
    ent (M.set r v) i j = if r = i then v.getD j 0 else ent M i j := by
  unfold ent
  rw [getD_set_row]
  by_cases h : r = i
  · subst h; simp [hr]
  · simp [h]

lemma solvesAug_scale (M : List (List ℚ)) (n col : ℕ) (piv : ℚ) (x : List ℚ)
    (hWF : WF M n (n + 1)) (hcol : col < n) (hpiv : piv ≠ 0)
    (hzero : ∀ j, j < col → ent M col j = 0) :
    SolvesAug (M.set col (rowDivFrom (M.getD col []) col piv)) n x ↔
      SolvesAug M n x := by
  have hlen : M.length = n := hWF.1
  have hrowlen : (M.getD col []).length = n + 1 := WF_ent_getD M n (n + 1) col hWF hcol
  have hent : ∀ j, j ≤ n →
      ent (M.set col (rowDivFrom (M.getD col []) col piv)) col j =
        (if col ≤ j then ent M col j / piv else ent M col j) := by
    intro j hj
    rw [ent_set_row _ _ _ _ _ (by omega), if_pos rfl,
      getD_rowDivFrom _ _ _ _ (by omega)]
    rfl
  have hother : ∀ i j, i ≠ col →
      ent (M.set col (rowDivFrom (M.getD col []) col piv)) i j = ent M i j := by
    intro i j hne
    rw [ent_set_row _ _ _ _ _ (by omega), if_neg (fun h => hne h.symm)]
  have key : rowEqn (M.set col (rowDivFrom (M.getD col []) col piv)) n col x ↔
      rowEqn M n col x := by
    unfold rowEqn
    rw [hent n (le_refl n)]
    rw [Finset.sum_congr rfl (fun j hj => by
      rw [hent j (by rw [Finset.mem_range] at hj; omega)])]
    rw [if_pos (by omega : col ≤ n)]
    rw [sum_range_split n col (by omega), sum_range_split n col (by omega)]
    have hz1 : ∑ j in Finset.Ico 0 col,
        (if col ≤ j then ent M col j / piv else ent M col j) * x.getD j 0 = 0 := by
      apply Finset.sum_eq_zero
      intro j hj
      rw [Finset.mem_Ico] at hj
      rw [if_neg (by omega), hzero j (by omega), zero_mul]
    have hz2 : ∑ j in Finset.Ico 0 col, ent M col j * x.getD j 0 = 0 := by
      apply Finset.sum_eq_zero
      intro j hj
      rw [Finset.mem_Ico] at hj
      rw [hzero j (by omega), zero_mul]
    rw [hz1, hz2, zero_add, zero_add]
    have hstep : ∑ j in Finset.Ico col n,
        (if col ≤ j then ent M col j / piv else ent M col j) * x.getD j 0 =
          (∑ j in Finset.Ico col n, ent M col j * x.getD j 0) / piv := by
      rw [Finset.sum_div]
      apply Finset.sum_congr rfl
      intro j hj
      rw [Finset.mem_Ico] at hj
      rw [if_pos (by omega : col ≤ j), div_mul_eq_mul_div]
    rw [hstep]
    constructor
    · intro h
      have := congrArg (fun t => t * piv) h
      simpa [div_mul_cancel₀, hpiv] using this
    · intro h
      rw [h]
  constructor
  · intro h i hi
    by_cases hic : i = col
    · subst hic; exact key.1 (h i hi)
    · have := h i hi
      unfold rowEqn at this ⊢
      rw [hother i n hic] at this
      rwa [Finset.sum_congr rfl (fun j _ => by rw [hother i j hic])] at this
  · intro h i hi
    by_cases hic : i = col
    · subst hic; exact key.2 (h i hi)
    · have := h i hi
      unfold rowEqn at this ⊢
      rw [hother i n hic]
      rwa [Finset.sum_congr rfl (fun j _ => by rw [hother i j hic])]

lemma solvesAug_sub (M : List (List ℚ)) (n col r : ℕ) (f : ℚ) (x : List ℚ)
    (hWF : WF M n (n + 1)) (hcol : col < n) (hr : r < n) (hne : r ≠ col)
    (hzc : ∀ j, j < col → ent M col j = 0) (hzr : ∀ j, j < col → ent M r j = 0) :
    SolvesAug (M.set r (rowSubFrom (M.getD r []) (M.getD col []) col f)) n x ↔
      SolvesAug M n x := by
  have hlen : M.length = n := hWF.1
  have hrowlen : (M.getD r []).length = n + 1 := WF_ent_getD M n (n + 1) r hWF hr
  have hE : ∀ j, j ≤ n →
      ent (M.set r (rowSubFrom (M.getD r []) (M.getD col []) col f)) r j =
        ent M r j - f * ent M col j := by
    intro j hj
    rw [ent_set_row _ _ _ _ _ (by omega), if_pos rfl,
      getD_rowSubFrom _ _ _ _ _ (by omega)]
    by_cases hcj : col ≤ j
    · rw [if_pos hcj]; rfl
    · rw [if_neg hcj]
      have h1 : ent M r j = (M.getD r []).getD j 0 := rfl
      rw [← h1, hzc j (by omega), hzr j (by omega), mul_zero, sub_zero]
  have hother : ∀ i j, i ≠ r →
      ent (M.set r (rowSubFrom (M.getD r []) (M.getD col []) col f)) i j = ent M i j := by
    intro i j hi
    rw [ent_set_row _ _ _ _ _ (by omega), if_neg (fun h => hi h.symm)]
  have hrowother : ∀ i, i ≠ r →
      (rowEqn (M.set r (rowSubFrom (M.getD r []) (M.getD col []) col f)) n i x ↔
        rowEqn M n i x) := by
    intro i hi
    unfold rowEqn
    rw [hother i n hi, Finset.sum_congr rfl (fun j _ => by rw [hother i j hi])]
  have hsum : ∑ j in Finset.range n,
      ent (M.set r (rowSubFrom (M.getD r []) (M.getD col []) col f)) r j * x.getD j 0 =
        (∑ j in Finset.range n, ent M r j * x.getD j 0) -
          f * ∑ j in Finset.range n, ent M col j * x.getD j 0 := by
    rw [Finset.mul_sum, ← Finset.sum_sub_distrib]
    apply Finset.sum_congr rfl
    intro j hj
    rw [Finset.mem_range] at hj
    rw [hE j (by omega)]
    ring
  constructor
  · intro h i hi
    by_cases hir : i = r
    · subst hir
      have ecol : rowEqn M n col x := (hrowother col (Ne.symm hne)).1 (h col hcol)
      have er := h i hi
      unfold rowEqn at er ecol ⊢
      rw [hsum, hE n (le_refl n)] at er
      have : (∑ j in Finset.range n, ent M i j * x.getD j 0) -
          f * ∑ j in Finset.range n, ent M col j * x.getD j 0 =
            ent M i n - f * ent M col n := er
      rw [ecol] at this
      linarith
    · exact (hrowother i hir).1 (h i hi)
  · intro h i hi
    by_cases hir : i = r
    · subst hir
      have ecol := h col hcol
      have er := h i hi
      unfold rowEqn at er ecol ⊢
      rw [hsum, hE n (le_refl n), ecol, er]
    · exact (hrowother i hir).2 (h i hi)

/-- Semantic description of `solve`'s inner elimination fold: shapes and
the solution set are preserved, rows not listed are untouched, the unit
pivot survives, and on a clean run the listed rows end with a zero in the
pivot column. -/
lemma elimRowsSolve_sem (n col : ℕ) (hcol : col < n) :
    ∀ (rs : List ℕ) (M : List (List ℚ)),
      WF M n (n + 1) →
      (∀ r ∈ rs, col < r ∧ r < n) →
      rs.Nodup →
      LowerZero M n col →
      ent M col col = 1 →
      WF (elimRowsSolve col rs M).1 n (n + 1) ∧
      (∀ x, SolvesAug (elimRowsSolve col rs M).1 n x ↔ SolvesAug M n x) ∧
      LowerZero (elimRowsSolve col rs M).1 n col ∧
      (∀ i, i ∉ rs → (elimRowsSolve col rs M).1.getD i [] = M.getD i []) ∧
      ent (elimRowsSolve col rs M).1 col col = 1 ∧
      ((elimRowsSolve col rs M).2 = true →
        ∀ r ∈ rs, ent (elimRowsSolve col rs M).1 r col = 0) := by
  intro rs
  induction rs with
  | nil =>
    intro M hWF _ _ hLZ hone
    refine ⟨hWF, fun x => Iff.rfl, hLZ, fun i _ => rfl, hone, ?_⟩
    intro _ r hr
    exact absurd hr (List.not_mem_nil r)
  | cons r rs ih =>
    intro M hWF hbounds hnd hLZ hone
    have hr : col < r ∧ r < n := hbounds r (by simp)
    have hrlen : M.length = n := hWF.1
    have hrownee : (M.getD r []).length = n + 1 := WF_ent_getD M n (n + 1) r hWF hr.2
    have hndtail : rs.Nodup := (List.nodup_cons.mp hnd).2
    have hrnotin : r ∉ rs := (List.nodup_cons.mp hnd).1
    have hboundstail : ∀ r' ∈ rs, col < r' ∧ r' < n := fun r' h => hbounds r' (by simp [h])
    by_cases hskip : |ent M r col| < eps
    · have hu : elimRowsSolve col (r :: rs) M =
          ((elimRowsSolve col rs M).1,
            decide (ent M r col = 0) && (elimRowsSolve col rs M).2) := by
        simp only [elimRowsSolve]
        rw [if_pos hskip]
      obtain ⟨iWF, iSol, iLZ, iUn, iOne, iClr⟩ := ih M hWF hboundstail hndtail hLZ hone
      rw [hu]
      refine ⟨iWF, iSol, iLZ, ?_, iOne, ?_⟩
      · intro i hi
        exact iUn i (fun h => hi (by simp [h]))
      · intro hflag r' hr'
        simp only [Bool.and_eq_true, decide_eq_true_eq] at hflag
        rcases List.mem_cons.mp hr' with h | h
        · subst h
          have : (elimRowsSolve col rs M).1.getD r' [] = M.getD r' [] := iUn r' hrnotin
          show ((elimRowsSolve col rs M).1.getD r' []).getD col 0 = 0
          rw [this]
          exact hflag.1
        · exact iClr hflag.2 r' h
    · have hu : elimRowsSolve col (r :: rs) M =
          elimRowsSolve col rs
            (M.set r (rowSubFrom (M.getD r []) (M.getD col []) col (ent M r col))) := by
        simp only [elimRowsSolve]
        rw [if_neg hskip]
      set f := ent M r col with hf
      set M' := M.set r (rowSubFrom (M.getD r []) (M.getD col []) col f) with hM'
      have hWF' : WF M' n (n + 1) := by
        apply WF_set _ _ _ _ _ hWF
        rw [length_rowSubFrom, hrownee]
      have hEr : ∀ j, j ≤ n → ent M' r j = ent M r j - f * ent M col j := by
        intro j hj
        rw [hM', ent_set_row _ _ _ _ _ (by omega), if_pos rfl,
          getD_rowSubFrom _ _ _ _ _ (by omega)]
        by_cases hcj : col ≤ j
        · rw [if_pos hcj]; rfl
        · rw [if_neg hcj]
          have h1 : ent M r j = (M.getD r []).getD j 0 := rfl
          have h2 : ent M col j = 0 := hLZ col j (by omega) (by omega) (by omega)
          rw [← h1, h2, mul_zero, sub_zero]
      have hother : ∀ i j, i ≠ r → ent M' i j = ent M i j := by
        intro i j hi
        rw [hM', ent_set_row _ _ _ _ _ (by omega), if_neg (fun h => hi h.symm)]
      have hLZ' : LowerZero M' n col := by
        intro r' j hj hjr hr'
        by_cases hir : r' = r
        · subst hir
          by_cases hcj : col ≤ j
        -- j < col always here, since hj : j < col
          · omega
          · rw [hEr j (by omega)]
            have h2 : ent M col j = 0 := hLZ col j hj (by omega) (by omega)
            rw [hLZ r' j hj hjr hr', h2, mul_zero, sub_zero]
        · rw [hother r' j hir]
          exact hLZ r' j hj hjr hr'
      have hone' : ent M' col col = 1 := by
        rw [hother col col (Ne.symm (by omega))]
        exact hone
      obtain ⟨iWF, iSol, iLZ, iUn, iOne, iClr⟩ := ih M' hWF' hboundstail hndtail hLZ' hone'
      rw [hu]
      refine ⟨iWF, ?_, iLZ, ?_, iOne, ?_⟩
      · intro x
        rw [iSol x, hM']
        apply solvesAug_sub M n col r f x hWF hcol hr.2 (by omega)
        · intro j hj
          exact hLZ col j hj (by omega) (by omega)
        · intro j hj
          exact hLZ r j hj (by omega) hr.2
      · intro i hi
        have h1 : i ≠ r := fun h => hi (by simp [h])
        have h2 : i ∉ rs := fun h => hi (by simp [h])
        rw [iUn i h2, hM', getD_set_row, if_neg (fun h => h1 h.1.symm)]
      · intro hflag r' hr'
        rcases List.mem_cons.mp hr' with h | h
        · subst h
          have huntouched : (elimRowsSolve col rs M').1.getD r' [] = M'.getD r' [] :=
            iUn r' hrnotin
          show ((elimRowsSolve col rs M').1.getD r' []).getD col 0 = 0
          rw [huntouched]
          have : ent M' r' col = f - f * ent M col col := hEr col (by omega)
          rw [hone, mul_one, sub_self] at this
          exact this
        · exact iClr hflag r' h

lemma eps_pos : (0 : ℚ) < eps := by norm_num [eps]

lemma LowerZero_swap (M : List (List ℚ)) (n col p : ℕ) (hlen : M.length = n)
    (hcol : col < n) (hp : p < n) (hcp : col ≤ p) (hLZ : LowerZero M n col) :
    LowerZero (swapRows M col p) n col := by
  intro r j hj hjr hr
  rw [ent_swapRows M col p r j (by omega) (by omega)]
  split_ifs with h1 h2
  · exact hLZ col j hj (by omega) (by omega)
  · exact hLZ p j hj (by omega) (by omega)
  · exact hLZ r j hj hjr hr

lemma DiagOne_swap (M : List (List ℚ)) (n col p : ℕ) (hlen : M.length = n)
    (hcol : col < n) (hp : p < n) (hcp : col ≤ p) (hDO : DiagOne M col) :
    DiagOne (swapRows M col p) col := by
  intro j hj
  rw [ent_swapRows M col p j j (by omega) (by omega),
    if_neg (by omega), if_neg (by omega)]
  exact hDO j hj

/-- One forward-elimination column of `solve`, on a clean step: shapes,
the structural invariants and the solution set all carry to `col + 1`. -/
lemma solveStep_sem (n col : ℕ) (M M2 : List (List ℚ)) (flag : Bool)
    (hcol : col < n) (hWF : WF M n (n + 1)) (hDO : DiagOne M col)
    (hLZ : LowerZero M n col)
    (hstep : solveStep n col M = .ok (M2, flag)) (hflag : flag = true) :
    WF M2 n (n + 1) ∧ DiagOne M2 (col + 1) ∧ LowerZero M2 n (col + 1) ∧
      (∀ x, SolvesAug M2 n x ↔ SolvesAug M n x) := by
  have hlen : M.length = n := hWF.1
  obtain ⟨hp1, hp2⟩ := argmaxAbs_bounds M col n hcol
  set p := argmaxAbs M col n with hpdef
  by_cases hpiv : |ent M p col| < eps
  · exact absurd hstep (by unfold solveStep; rw [← hpdef, if_pos hpiv]; simp)
  · have hstep' : Except.ok (ε := Err) (elimRowsSolve col
        (List.range' (col + 1) (n - (col + 1)))
        ((if p ≠ col then swapRows M col p else M).set col
          (rowDivFrom ((if p ≠ col then swapRows M col p else M).getD col []) col
            (ent (if p ≠ col then swapRows M col p else M) col col)))) =
          .ok (M2, flag) := by
      rw [← hstep]
      unfold solveStep
      rw [← hpdef, if_neg hpiv]
    set M1 := if p ≠ col then swapRows M col p else M with hM1
    have hWF1 : WF M1 n (n + 1) := by
      rw [hM1]; split
      · exact WF_swapRows M n (n + 1) col p hWF hcol hp2
      · exact hWF
    have hlen1 : M1.length = n := hWF1.1
    have hLZ1 : LowerZero M1 n col := by
      rw [hM1]; split
      · exact LowerZero_swap M n col p hlen hcol hp2 hp1 hLZ
      · exact hLZ
    have hDO1 : DiagOne M1 col := by
      rw [hM1]; split
      · exact DiagOne_swap M n col p hlen hcol hp2 hp1 hDO
      · exact hDO
    have hSol1 : ∀ x, SolvesAug M1 n x ↔ SolvesAug M n x := by
      intro x
      rw [hM1]; split
      · exact solvesAug_swap M n col p hlen hcol hp2 x
      · exact Iff.rfl
    have hpivval : ent M1 col col = ent M p col := by
      rw [hM1]; split
      · next hne =>
        rw [ent_swapRows M col p col col (by omega) (by omega)]
        rw [if_neg (fun h => hne h.symm), if_pos rfl]
      · next hne =>
        have : p = col := by omega
        rw [this]
    have hpivne : ent M1 col col ≠ 0 := by
      rw [hpivval]
      intro h
      rw [h] at hpiv
      exact hpiv (by simpa using eps_pos)
    have hrowlen1 : (M1.getD col []).length = n + 1 :=
      WF_ent_getD M1 n (n + 1) col hWF1 hcol
    set M2' := M1.set col (rowDivFrom (M1.getD col []) col (ent M1 col col)) with hM2'
    have hWF2 : WF M2' n (n + 1) := by
      apply WF_set _ _ _ _ _ hWF1
      rw [length_rowDivFrom, hrowlen1]
    have hent2 : ∀ i j, i ≠ col → ent M2' i j = ent M1 i j := by
      intro i j hi
      rw [hM2', ent_set_row _ _ _ _ _ (by omega), if_neg (fun h => hi h.symm)]
    have hentcol2 : ∀ j, j ≤ n → ent M2' col j =
        (if col ≤ j then ent M1 col j / ent M1 col col else ent M1 col j) := by
      intro j hj
      rw [hM2', ent_set_row _ _ _ _ _ (by omega), if_pos rfl,
        getD_rowDivFrom _ _ _ _ (by omega)]
      rfl
    have hone2 : ent M2' col col = 1 := by
      rw [hentcol2 col (by omega), if_pos (le_refl col), div_self hpivne]
    have hLZ2 : LowerZero M2' n col := by
      intro r j hj hjr hr
      by_cases hrc : r = col
      · subst hrc
        rw [hentcol2 j (by omega), if_neg (by omega)]
        exact hLZ1 r j hj hjr hr
      · rw [hent2 r j hrc]
        exact hLZ1 r j hj hjr hr
    have hDO2 : DiagOne M2' col := by
      intro j hj
      rw [hent2 j j (by omega)]
      exact hDO1 j hj
    have hSol2 : ∀ x, SolvesAug M2' n x ↔ SolvesAug M1 n x := by
      intro x
      rw [hM2']
      apply solvesAug_scale M1 n col (ent M1 col col) x hWF1 hcol hpivne
      intro j hj
      exact hLZ1 col j hj (by omega) (by omega)
    have hrs : ∀ r ∈ List.range' (col + 1) (n - (col + 1)), col < r ∧ r < n := by
      intro r hr
      rw [List.mem_range'_1] at hr
      omega
    obtain ⟨iWF, iSol, iLZ, iUn, iOne, iClr⟩ :=
      elimRowsSolve_sem n col hcol (List.range' (col + 1) (n - (col + 1))) M2'
        hWF2 hrs (List.nodup_range' _ _) hLZ2 hone2
    have hME : elimRowsSolve col (List.range' (col + 1) (n - (col + 1))) M2' = (M2, flag) := by
      have := Except.ok.inj hstep'
      rw [← this]
    have hM2eq : (elimRowsSolve col (List.range' (col + 1) (n - (col + 1))) M2').1 = M2 := by
      rw [hME]
    have hflageq : (elimRowsSolve col (List.range' (col + 1) (n - (col + 1))) M2').2 = true := by
      rw [hME, hflag]
    rw [hM2eq] at iWF iSol iLZ iUn iOne
    rw [hM2eq] at iClr
    refine ⟨iWF, ?_, ?_, ?_⟩
    · intro j hj
      by_cases hjc : j = col
      · subst hjc; exact iOne
      · have hj' : j < col := by omega
        have huj : M2.getD j [] = M2'.getD j [] := by
          apply iUn
          rw [List.mem_range'_1]
          omega
        show (M2.getD j []).getD j 0 = 1
        rw [huj]
        have : ent M2' j j = 1 := hDO2 j hj'
        exact this
    · intro r j hj hjr hr
      by_cases hjc : j = col
      · subst hjc
        apply iClr hflageq
        rw [List.mem_range'_1]
        omega
      · exact iLZ r j (by omega) hjr hr
    · intro x
      rw [iSol x, hSol2 x, hSol1 x]

lemma colLoop_flag (step : ℕ → List (List ℚ) → Except Err (List (List ℚ) × Bool)) :
    ∀ (cs : List ℕ) (M : List (List ℚ)) (acc : Bool) (Mf : List (List ℚ)),
      colLoop step cs M acc = .ok (Mf, true) → acc = true := by
  intro cs
  induction cs with
  | nil =>
    intro M acc Mf hrun
    have : Except.ok (ε := Err) (M, acc) = .ok (Mf, true) := hrun
    exact (Prod.mk.injEq .. ▸ Except.ok.inj this).2
  | cons c cs ih =>
    intro M acc Mf hrun
    rcases hms : step c M with e | r
    · rw [show colLoop step (c :: cs) M acc = .error e from
        by simp only [colLoop]; rw [hms]] at hrun
      exact absurd hrun (by simp)
    · have hrun' : colLoop step cs r.1 (acc && r.2) = .ok (Mf, true) := by
        rw [show colLoop step (c :: cs) M acc = colLoop step cs r.1 (acc && r.2) from
          by simp only [colLoop]; rw [hms]] at hrun
        exact hrun
      have := ih r.1 (acc && r.2) Mf hrun'
      exact (Bool.and_eq_true .. ▸ this).1

/-- Forward elimination over the remaining columns: on a clean successful
run the final matrix is well-formed unit upper triangular with the same
solution set as the input. -/
lemma colLoop_solve_sem (n : ℕ) :
    ∀ (k col : ℕ) (M : List (List ℚ)) (acc : Bool) (Mf : List (List ℚ)),
      colLoop (solveStep n) (List.range' col k) M acc = .ok (Mf, true) →
      col + k = n →
      WF M n (n + 1) → DiagOne M col → LowerZero M n col →
      WF Mf n (n + 1) ∧ DiagOne Mf n ∧ LowerZero Mf n n ∧
        (∀ x, SolvesAug Mf n x ↔ SolvesAug M n x) := by
  intro k
  induction k with
  | zero =>
    intro col M acc Mf hrun hcol hWF hDO hLZ
    have : Except.ok (ε := Err) (M, acc) = .ok (Mf, true) := hrun
    obtain ⟨h1, h2⟩ := Prod.mk.injEq .. ▸ Except.ok.inj this
    have hn : col = n := by omega
    subst hn
    subst h1
    exact ⟨hWF, hDO, hLZ, fun x => Iff.rfl⟩
  | succ k ih =>
    intro col M acc Mf hrun hcol hWF hDO hLZ
    rw [List.range'_succ] at hrun
    have hcoln : col < n := by omega
    rcases hms : solveStep n col M with e | r
    · rw [show colLoop (solveStep n) (col :: List.range' (col + 1) k) M acc =
          .error e from by simp only [colLoop]; rw [hms]] at hrun
      exact absurd hrun (by simp)
    · have hrun' : colLoop (solveStep n) (List.range' (col + 1) k) r.1 (acc && r.2) =
          .ok (Mf, true) := by
        rw [show colLoop (solveStep n) (col :: List.range' (col + 1) k) M acc =
          colLoop (solveStep n) (List.range' (col + 1) k) r.1 (acc && r.2) from
          by simp only [colLoop]; rw [hms]] at hrun
        exact hrun
      have hfl : r.2 = true :=
        (Bool.and_eq_true .. ▸ colLoop_flag (solveStep n) _ _ _ _ hrun').2
      obtain ⟨jWF, jDO, jLZ, jSol⟩ :=
        solveStep_sem n col M r.1 r.2 hcoln hWF hDO hLZ (by rw [hms]) hfl
      obtain ⟨iWF, iDO, iLZ, iSol⟩ :=
        ih (col + 1) r.1 (acc && r.2) Mf hrun' (by omega) jWF jDO jLZ
      exact ⟨iWF, iDO, iLZ, fun x => (iSol x).trans (jSol x)⟩

lemma backSub_length (M : List (List ℚ)) (n : ℕ) : ∀ k, (backSub M n k).length = k := by
  intro k
  induction k with
  | zero => rfl
  | succ k ih => simp only [backSub, List.length_cons, ih]

lemma backSub_suffix (M : List (List ℚ)) (n : ℕ) :
    ∀ (j k : ℕ), backSub M n k = (backSub M n (k + j)).drop j := by
  intro j
  induction j with
  | zero => intro k; rfl
  | succ j ih =>
    intro k
    have h1 : backSub M n (k + (j + 1)) =
        (ent M (n - (k + j + 1)) n -
          ((List.range' (n - (k + j + 1) + 1) (k + j)).map
            (fun t => ent M (n - (k + j + 1)) t *
              (backSub M n (k + j)).getD (t - (n - (k + j + 1) + 1)) 0)).sum)
          :: backSub M n (k + j) := rfl
    rw [show k + (j + 1) = k + j + 1 from rfl] at h1 ⊢
    rw [h1, List.drop_succ_cons, ← ih k]

lemma backSub_getD (M : List (List ℚ)) (n : ℕ) (k t : ℕ) (ht : t < k) (hk : k ≤ n) :
    (backSub M n k).getD t 0 = (backSub M n n).getD (n - k + t) 0 := by
  have h1 : backSub M n k = (backSub M n n).drop (n - k) := by
    have := backSub_suffix M n (n - k) k
    rw [show k + (n - k) = n from by omega] at this
    exact this
  rw [h1]
  have hlen : (backSub M n n).length = n := backSub_length M n n
  rw [getD_of_lt _ _ _ (by rw [List.length_drop, hlen]; omega),
    getD_of_lt _ _ _ (by rw [hlen]; omega)]
  rw [List.getElem_drop]

lemma backSub_rec (M : List (List ℚ)) (n i : ℕ) (hi : i < n) :
    (backSub M n n).getD i 0 =
      ent M i n - ∑ j in Finset.Ico (i + 1) n, ent M i j * (backSub M n n).getD j 0 := by
  have hk : n - i = (n - i - 1) + 1 := by omega
  have h0 : (backSub M n n).getD i 0 = (backSub M n (n - i)).getD 0 0 := by
    rw [backSub_getD M n (n - i) 0 (by omega) (by omega)]
    congr 1
    omega
  have h1 : backSub M n (n - i) =
      (ent M (n - (n - i - 1 + 1)) n -
        ((List.range' (n - (n - i - 1 + 1) + 1) (n - i - 1)).map
          (fun t => ent M (n - (n - i - 1 + 1)) t *
            (backSub M n (n - i - 1)).getD (t - (n - (n - i - 1 + 1) + 1)) 0)).sum)
        :: backSub M n (n - i - 1) := by
    rw [hk]
    rfl
  have hidx : n - (n - i - 1 + 1) = i := by omega
  rw [h0, h1, hidx]
  show ent M i n - ((List.range' (i + 1) (n - i - 1)).map
      (fun t => ent M i t * (backSub M n (n - i - 1)).getD (t - (i + 1)) 0)).sum = _
  congr 1
  rw [listSum_range'_map]
  rw [show i + 1 + (n - i - 1) = n from by omega]
  apply Finset.sum_congr rfl
  intro j hj
  rw [Finset.mem_Ico] at hj
  congr 1
  rw [backSub_getD M n (n - i - 1) (j - (i + 1)) (by omega) (by omega)]
  congr 1
  omega

/-- The vector produced by back substitution satisfies every row equation
of a unit upper triangular augmented system. -/
lemma backSub_solves (M : List (List ℚ)) (n : ℕ) (hDO : DiagOne M n)
    (hLZ : LowerZero M n n) : SolvesAug M n (backSub M n n) := by
  intro i hi
  unfold rowEqn
  rw [sum_range_split n i (by omega)]
  have hz : ∑ j in Finset.Ico 0 i, ent M i j * (backSub M n n).getD j 0 = 0 := by
    apply Finset.sum_eq_zero
    intro j hj
    rw [Finset.mem_Ico] at hj
    rw [hLZ i j (by omega) (by omega) hi, zero_mul]
  rw [hz, zero_add, Finset.sum_eq_sum_Ico_succ_bot (by omega : i < n), hDO i hi, one_mul,
    backSub_rec M n i hi]
  ring

/-- A unit upper triangular augmented system has at most one solution:
any solution agrees with back substitution on every coordinate. -/
lemma backSub_unique (M : List (List ℚ)) (n : ℕ) (hDO : DiagOne M n)
    (hLZ : LowerZero M n n) (y : List ℚ) (hy : SolvesAug M n y) :
    ∀ i, i < n → y.getD i 0 = (backSub M n n).getD i 0 := by
  have key : ∀ d i, i < n → n - i = d → y.getD i 0 = (backSub M n n).getD i 0 := by
    intro d
    induction d using Nat.strong_induction_on with
    | _ d ih =>
      intro i hi hd
      have hrow := hy i hi
      unfold rowEqn at hrow
      rw [sum_range_split n i (by omega)] at hrow
      have hz : ∑ j in Finset.Ico 0 i, ent M i j * y.getD j 0 = 0 := by
        apply Finset.sum_eq_zero
        intro j hj
        rw [Finset.mem_Ico] at hj
        rw [hLZ i j (by omega) (by omega) hi, zero_mul]
      rw [hz, zero_add, Finset.sum_eq_sum_Ico_succ_bot (by omega : i < n),
        hDO i hi, one_mul] at hrow
      have htail : ∑ j in Finset.Ico (i + 1) n, ent M i j * y.getD j 0 =
          ∑ j in Finset.Ico (i + 1) n, ent M i j * (backSub M n n).getD j 0 := by
        apply Finset.sum_congr rfl
        intro j hj
        rw [Finset.mem_Ico] at hj
        rw [ih (n - j) (by omega) j (by omega) rfl]
      rw [htail] at hrow
      rw [backSub_rec M n i hi]
      linarith
  intro i hi
  exact key (n - i) i hi rfl

lemma augSolve_WF (A : List (List ℚ)) (b : List ℚ) (n : ℕ)
    (hA : shape A = .ok (n, n)) (hb : b.length = n) : WF (augSolve A b) n (n + 1) := by
  obtain ⟨⟨hlen, hrows⟩, hn, -⟩ := (shape_ok_iff A n n).1 hA
  constructor
  · simp [augSolve, hlen]
  · intro row hrow
    simp only [augSolve, List.mem_map] at hrow
    obtain ⟨i, hi, hrow⟩ := hrow
    rw [List.mem_range, hlen] at hi
    rw [← hrow, List.length_append, List.length_singleton,
      WF_ent_getD A n n i ⟨hlen, hrows⟩ hi]

lemma ent_augSolve (A : List (List ℚ)) (b : List ℚ) (n i j : ℕ)
    (hA : shape A = .ok (n, n)) (hi : i < n) (hj : j ≤ n) :
    ent (augSolve A b) i j = if j = n then b.getD i 0 else ent A i j := by
  obtain ⟨⟨hlen, hrows⟩, hn, -⟩ := (shape_ok_iff A n n).1 hA
  have hrowA : (A.getD i []).length = n := WF_ent_getD A n n i ⟨hlen, hrows⟩ hi
  have hrow : (augSolve A b).getD i [] = A.getD i [] ++ [b.getD i 0] := by
    unfold augSolve
    rw [getD_rangeMapRow _ _ _ (by omega)]
  have hlapp : (A.getD i [] ++ [b.getD i 0]).length = n + 1 := by
    rw [List.length_append, List.length_singleton, hrowA]
  show ((augSolve A b).getD i []).getD j 0 = _
  rw [hrow]
  by_cases hjn : j = n
  · subst hjn
    rw [if_pos rfl, getD_of_lt _ _ _ (by omega)]
    rw [List.getElem_append_right (by omega)]
    simp [List.getElem_singleton]
  · rw [if_neg hjn, getD_of_lt _ _ _ (by omega)]
    rw [List.getElem_append_left (by omega)]
    rw [← getD_of_lt _ _ _ (show j < (A.getD i []).length by omega)]
    rfl

lemma solvesAug_augSolve (A : List (List ℚ)) (b : List ℚ) (n : ℕ) (x : List ℚ)
    (hA : shape A = .ok (n, n)) :
    SolvesAug (augSolve A b) n x ↔
      (∀ i, i < n → ∑ j in Finset.range n, ent A i j * x.getD j 0 = b.getD i 0) := by
  have hrw : ∀ i, i < n → (rowEqn (augSolve A b) n i x ↔
      ∑ j in Finset.range n, ent A i j * x.getD j 0 = b.getD i 0) := by
    intro i hi
    unfold rowEqn
    rw [ent_augSolve A b n i n hA hi (le_refl n), if_pos rfl]
    have hs : ∑ j in Finset.range n, ent (augSolve A b) i j * x.getD j 0 =
        ∑ j in Finset.range n, ent A i j * x.getD j 0 := by
      apply Finset.sum_congr rfl
      intro j hj
      rw [Finset.mem_range] at hj
      rw [ent_augSolve A b n i j hA hi (by omega), if_neg (by omega)]
    rw [hs]
  constructor
  · intro h i hi; exact (hrw i hi).1 (h i hi)
  · intro h i hi; exact (hrw i hi).2 (h i hi)

lemma matvec_eq_iff (A : List (List ℚ)) (b x : List ℚ) (n : ℕ)
    (hA : shape A = .ok (n, n)) (hb : b.length = n) (hx : x.length = n) :
    matvec A x = .ok b ↔
      (∀ i, i < n → ∑ j in Finset.range n, ent A i j * x.getD j 0 = b.getD i 0) := by
  obtain ⟨⟨hlen, hrows⟩, hn, -⟩ := (shape_ok_iff A n n).1 hA
  have hmv : matvec A x = .ok (A.map (fun row =>
      ∑ k in Finset.range n, row.getD k 0 * x.getD k 0)) := by
    unfold matvec
    rw [hA]
    show (if x.length ≠ n then Except.error Err.DimensionMismatch
      else Except.ok (A.map fun row => ∑ k in Finset.range n,
        row.getD k 0 * x.getD k 0)) = _
    rw [if_neg (by omega)]
  rw [hmv]
  have hentry : ∀ i, i < n → (A.map (fun row =>
      ∑ k in Finset.range n, row.getD k 0 * x.getD k 0)).getD i 0 =
        ∑ j in Finset.range n, ent A i j * x.getD j 0 := by
    intro i hi
    rw [map_getD_row _ _ i (by omega)]
    rfl
  constructor
  · intro h i hi
    have := congrArg (fun l => l.getD i 0) (Except.ok.inj h)
    simp only at this
    rw [← this, hentry i hi]
  · intro h
    congr 1
    apply listExt_getD
    · simp [hlen, hb]
    · intro i hi
      simp only [List.length_map, hlen] at hi
      rw [hentry i hi, h i hi]

/-- C1 (amended with the clean-run condition): when forward elimination
succeeds with every skipped factor exactly zero, `solve` returns the
unique exact solution of `A·x = b`. -/
theorem solve_exact (A : List (List ℚ)) (b : List ℚ) (n : ℕ) (Mf : List (List ℚ))
    (hA : shape A = .ok (n, n)) (hb : b.length = n)
    (hrun : colLoop (solveStep n) (List.range n) (augSolve A b) true = .ok (Mf, true)) :
    solve A b = .ok (backSub Mf n n) ∧
    matvec A (backSub Mf n n) = .ok b ∧
    (∀ y, y.length = n → matvec A y = .ok b → y = backSub Mf n n) := by
  have hWF0 : WF (augSolve A b) n (n + 1) := augSolve_WF A b n hA hb
  have hrun' : colLoop (solveStep n) (List.range' 0 n) (augSolve A b) true =
      .ok (Mf, true) := by
    rw [← List.range_eq_range']
    exact hrun
  obtain ⟨fWF, fDO, fLZ, fSol⟩ :=
    colLoop_solve_sem n n 0 (augSolve A b) true Mf hrun' (by omega) hWF0
      (fun j hj => absurd hj (Nat.not_lt_zero j))
      (fun r j hj _ _ => absurd hj (Nat.not_lt_zero j))
  have hX : SolvesAug (augSolve A b) n (backSub Mf n n) :=
    (fSol (backSub Mf n n)).1 (backSub_solves Mf n fDO fLZ)
  have hXlen : (backSub Mf n n).length = n := backSub_length Mf n n
  refine ⟨?_, ?_, ?_⟩
  · unfold solve
    rw [hA]
    show (if n ≠ n then Except.error Err.ShapeMismatch
      else if b.length ≠ n then Except.error Err.ShapeMismatch
      else match colLoop (solveStep n) (List.range n) (augSolve A b) true with
        | Except.error e => Except.error e
        | Except.ok r => Except.ok (backSub r.1 n n)) = _
    rw [if_neg (by omega), if_neg (by omega), hrun]
  · exact (matvec_eq_iff A b (backSub Mf n n) n hA hb hXlen).2
      ((solvesAug_augSolve A b n (backSub Mf n n) hA).1 hX)
  · intro y hy hmy
    have hySol : SolvesAug Mf n y :=
      (fSol y).2 ((solvesAug_augSolve A b n y hA).2
        ((matvec_eq_iff A b y n hA hb hy).1 hmy))
    apply listExt_getD
    · rw [hy, hXlen]
    · intro i hi
      rw [hy] at hi
      exact backSub_unique Mf n fDO fLZ y hySol i hi

/-- Witness for C1 at the spec's concrete instance:
`solve([[2,0],[0,2]], [4,6]) == [2.0, 3.0]`, and the result reconstructs
`b` exactly. -/
theorem solve_exact_witness :
    solve [[2, 0], [0, 2]] [4, 6] = .ok [2, 3] ∧
    matvec [[2, 0], [0, 2]] [2, 3] = .ok [4, 6] := by
  have h := solve_exact [[2, 0], [0, 2]] [4, 6] 2 [[1, 0, 2], [0, 1, 3]]
    (by with_unfolding_all rfl) (by with_unfolding_all rfl) (by with_unfolding_all rfl)
  have hbs : backSub [[1, 0, 2], [0, 1, 3]] 2 2 = [2, 3] := by with_unfolding_all rfl
  refine ⟨?_, ?_⟩
  · rw [h.1, hbs]
  · have h2 := h.2.1
    rwa [hbs] at h2

/-!
## Correctness of `inverse` (claim C2)

Invariant: writing the working n×2n matrix as `[L | R]`, every Gauss-Jordan
row operation preserves `R · A = L`, because it acts on the whole row and
hence on both halves by the same left-multiplication.  Once the left half
is fully reduced to the identity, the right half is a left inverse of `A`,
hence (square case) also its right inverse.
-/

/-- The right half times `A` equals the left half, entrywise. -/
def RelA (A : List (List ℚ)) (n : ℕ) (M : List (List ℚ)) : Prop :=
  ∀ i j, i < n → j < n →
    ∑ k in Finset.range n, ent M i (n + k) * ent A k j = ent M i j

/-- Columns before `col` of the left half already form the identity. -/
def IdCols (M : List (List ℚ)) (n col : ℕ) : Prop :=
  ∀ i j, j < col → i < n → ent M i j = (if i = j then (1 : ℚ) else 0)

lemma RelA_swap (A : List (List ℚ)) (n col p : ℕ) (M : List (List ℚ))
    (hlen : M.length = n) (hcol : col < n) (hp : p < n) (hRel : RelA A n M) :
    RelA A n (swapRows M col p) := by
  intro i j hi hj
  have hent := fun a b => ent_swapRows M col p a b (by omega) (by omega)
  rw [hent i j, Finset.sum_congr rfl (fun k _ => by rw [hent i (n + k)])]
  split_ifs with h1 h2
  · exact hRel col j hcol hj
  · exact hRel p j hp hj
  · exact hRel i j hi hj

lemma RelA_scale (A : List (List ℚ)) (n col : ℕ) (M : List (List ℚ)) (piv : ℚ)
    (hWF : WF M n (n + n)) (hcol : col < n) (hRel : RelA A n M) :
    RelA A n (M.set col (rowDivFrom (M.getD col []) 0 piv)) := by
  have hlen : M.length = n := hWF.1
  have hrowlen : (M.getD col []).length = n + n := WF_ent_getD M n (n + n) col hWF hcol
  have hent : ∀ j, j < n + n →
      ent (M.set col (rowDivFrom (M.getD col []) 0 piv)) col j = ent M col j / piv := by
    intro j hj
    rw [ent_set_row _ _ _ _ _ (by omega), if_pos rfl,
      getD_rowDivFrom _ _ _ _ (by omega), if_pos (Nat.zero_le j)]
    rfl
  have hother : ∀ i j, i ≠ col →
      ent (M.set col (rowDivFrom (M.getD col []) 0 piv)) i j = ent M i j := by
    intro i j hi
    rw [ent_set_row _ _ _ _ _ (by omega), if_neg (fun h => hi h.symm)]
  intro i j hi hj
  by_cases hic : i = col
  · have hs : ∑ k in Finset.range n,
        ent (M.set col (rowDivFrom (M.getD col []) 0 piv)) i (n + k) * ent A k j =
          ∑ k in Finset.range n, (ent M col (n + k) * ent A k j) / piv := by
      apply Finset.sum_congr rfl
      intro k hk
      rw [Finset.mem_range] at hk
      rw [hic, hent (n + k) (by omega), div_mul_eq_mul_div]
    rw [hs, hic, hent j (by omega), ← Finset.sum_div, hRel col j hcol hj]
  · have hs : ∑ k in Finset.range n,
        ent (M.set col (rowDivFrom (M.getD col []) 0 piv)) i (n + k) * ent A k j =
          ∑ k in Finset.range n, ent M i (n + k) * ent A k j := by
      apply Finset.sum_congr rfl
      intro k _
      rw [hother i (n + k) hic]
    rw [hs, hother i j hic]
    exact hRel i j hi hj

lemma RelA_sub (A : List (List ℚ)) (n col r : ℕ) (M : List (List ℚ)) (f : ℚ)
    (hWF : WF M n (n + n)) (hcol : col < n) (hr : r < n) (hRel : RelA A n M) :
    RelA A n (M.set r (rowSubFrom (M.getD r []) (M.getD col []) 0 f)) := by
  have hlen : M.length = n := hWF.1
  have hrowlen : (M.getD r []).length = n + n := WF_ent_getD M n (n + n) r hWF hr
  have hent : ∀ j, j < n + n →
      ent (M.set r (rowSubFrom (M.getD r []) (M.getD col []) 0 f)) r j =
        ent M r j - f * ent M col j := by
    intro j hj
    rw [ent_set_row _ _ _ _ _ (by omega), if_pos rfl,
      getD_rowSubFrom _ _ _ _ _ (by omega), if_pos (Nat.zero_le j)]
    rfl
  have hother : ∀ i j, i ≠ r →
      ent (M.set r (rowSubFrom (M.getD r []) (M.getD col []) 0 f)) i j = ent M i j := by
    intro i j hi
    rw [ent_set_row _ _ _ _ _ (by omega), if_neg (fun h => hi h.symm)]
  intro i j hi hj
  by_cases hir : i = r
  · have hs : ∑ k in Finset.range n,
        ent (M.set r (rowSubFrom (M.getD r []) (M.getD col []) 0 f)) i (n + k) * ent A k j =
          (∑ k in Finset.range n, ent M r (n + k) * ent A k j) -
            f * ∑ k in Finset.range n, ent M col (n + k) * ent A k j := by
      rw [Finset.mul_sum, ← Finset.sum_sub_distrib]
      apply Finset.sum_congr rfl
      intro k hk
      rw [Finset.mem_range] at hk
      rw [hir, hent (n + k) (by omega)]
      ring
    rw [hs, hir, hent j (by omega), hRel r j hr hj, hRel col j hcol hj]
  · have hs : ∑ k in Finset.range n,
        ent (M.set r (rowSubFrom (M.getD r []) (M.getD col []) 0 f)) i (n + k) * ent A k j =
          ∑ k in Finset.range n, ent M i (n + k) * ent A k j := by
      apply Finset.sum_congr rfl
      intro k _
      rw [hother i (n + k) hir]
    rw [hs, hother i j hir]
    exact hRel i j hi hj

/-- Semantic description of `inverse`'s inner elimination fold over the
given row indices (the pivot row itself is skipped inside). -/
lemma elimRowsInv_sem (A : List (List ℚ)) (n col : ℕ) (hcol : col < n) :
    ∀ (rs : List ℕ) (M : List (List ℚ)),
      WF M n (n + n) →
      (∀ r ∈ rs, r < n) →
      rs.Nodup →
      RelA A n M →
      IdCols M n col →
      ent M col col = 1 →
      WF (elimRowsInv col rs M).1 n (n + n) ∧
      RelA A n (elimRowsInv col rs M).1 ∧
      IdCols (elimRowsInv col rs M).1 n col ∧
      (∀ i, i ∉ rs ∨ i = col → (elimRowsInv col rs M).1.getD i [] = M.getD i []) ∧
      ent (elimRowsInv col rs M).1 col col = 1 ∧
      ((elimRowsInv col rs M).2 = true →
        ∀ r ∈ rs, r ≠ col → ent (elimRowsInv col rs M).1 r col = 0) := by
  intro rs
  induction rs with
  | nil =>
    intro M hWF _ _ hRel hId hone
    exact ⟨hWF, hRel, hId, fun i _ => rfl, hone, fun _ r hr _ =>
      absurd hr (List.not_mem_nil r)⟩
  | cons r rs ih =>
    intro M hWF hbounds hnd hRel hId hone
    have hrn : r < n := hbounds r (by simp)
    have hlen : M.length = n := hWF.1
    have hndtail : rs.Nodup := (List.nodup_cons.mp hnd).2
    have hrnotin : r ∉ rs := (List.nodup_cons.mp hnd).1
    have hboundstail : ∀ r' ∈ rs, r' < n := fun r' h => hbounds r' (by simp [h])
    by_cases hrc : r = col
    · have hu : elimRowsInv col (r :: rs) M = elimRowsInv col rs M := by
        simp only [elimRowsInv]
        rw [if_pos hrc]
      obtain ⟨iWF, iRel, iId, iUn, iOne, iClr⟩ := ih M hWF hboundstail hndtail hRel hId hone
      rw [hu]
      refine ⟨iWF, iRel, iId, ?_, iOne, ?_⟩
      · intro i hi
        apply iUn
        rcases hi with hi | hi
        · exact Or.inl (fun h => hi (by simp [h]))
        · exact Or.inr hi
      · intro hflag r' hr' hr'c
        rcases List.mem_cons.mp hr' with h | h
        · exact absurd (h.trans hrc) hr'c
        · exact iClr hflag r' h hr'c
    · have hrowlen : (M.getD r []).length = n + n := WF_ent_getD M n (n + n) r hWF hrn
      by_cases hskip : |ent M r col| < eps
      · have hu : elimRowsInv col (r :: rs) M =
            ((elimRowsInv col rs M).1,
              decide (ent M r col = 0) && (elimRowsInv col rs M).2) := by
          simp only [elimRowsInv]
          rw [if_neg hrc, if_pos hskip]
        obtain ⟨iWF, iRel, iId, iUn, iOne, iClr⟩ :=
          ih M hWF hboundstail hndtail hRel hId hone
        rw [hu]
        refine ⟨iWF, iRel, iId, ?_, iOne, ?_⟩
        · intro i hi
          apply iUn
          rcases hi with hi | hi
          · exact Or.inl (fun h => hi (by simp [h]))
          · exact Or.inr hi
        · intro hflag r' hr' hr'c
          simp only [Bool.and_eq_true, decide_eq_true_eq] at hflag
          rcases List.mem_cons.mp hr' with h | h
          · subst h
            have huntouched : (elimRowsInv col rs M).1.getD r' [] = M.getD r' [] :=
              iUn r' (Or.inl hrnotin)
            show ((elimRowsInv col rs M).1.getD r' []).getD col 0 = 0
            rw [huntouched]
            exact hflag.1
          · exact iClr hflag.2 r' h hr'c
      · have hu : elimRowsInv col (r :: rs) M =
            elimRowsInv col rs
              (M.set r (rowSubFrom (M.getD r []) (M.getD col []) 0 (ent M r col))) := by
          simp only [elimRowsInv]
          rw [if_neg hrc, if_neg hskip]
        set f := ent M r col with hf
        set M' := M.set r (rowSubFrom (M.getD r []) (M.getD col []) 0 f) with hM'
        have hWF' : WF M' n (n + n) := by
          apply WF_set _ _ _ _ _ hWF
          rw [length_rowSubFrom, hrowlen]
        have hEr : ∀ j, j < n + n → ent M' r j = ent M r j - f * ent M col j := by
          intro j hj
          rw [hM', ent_set_row _ _ _ _ _ (by omega), if_pos rfl,
            getD_rowSubFrom _ _ _ _ _ (by omega), if_pos (Nat.zero_le j)]
          rfl
        have hother : ∀ i j, i ≠ r → ent M' i j = ent M i j := by
          intro i j hi
          rw [hM', ent_set_row _ _ _ _ _ (by omega), if_neg (fun h => hi h.symm)]
        have hRel' : RelA A n M' := RelA_sub A n col r M f hWF hcol hrn hRel
        have hId' : IdCols M' n col := by
          intro i j hj hi
          by_cases hir : i = r
          · rw [hir, hEr j (by omega)]
            rw [hId col j hj hcol, if_neg (by omega), mul_zero, sub_zero, ← hir]
            exact hId i j hj hi
          · rw [hother i j hir]
            exact hId i j hj hi
        have hone' : ent M' col col = 1 := by
          rw [hother col col (Ne.symm hrc)]
          exact hone
        obtain ⟨iWF, iRel, iId, iUn, iOne, iClr⟩ :=
          ih M' hWF' hboundstail hndtail hRel' hId' hone'
        rw [hu]
        refine ⟨iWF, iRel, iId, ?_, iOne, ?_⟩
        · intro i hi
          have h1 : i ≠ r := by
            rcases hi with hi | hi
            · exact fun h => hi (by simp [h])
            · exact fun h => hrc (h ▸ hi)
          have h2 : i ∉ rs ∨ i = col := by
            rcases hi with hi | hi
            · exact Or.inl (fun h => hi (by simp [h]))
            · exact Or.inr hi
          rw [iUn i h2, hM', getD_set_row, if_neg (fun h => h1 h.1.symm)]
        · intro hflag r' hr' hr'c
          rcases List.mem_cons.mp hr' with h | h
          · subst h
            have huntouched : (elimRowsInv col rs M').1.getD r' [] = M'.getD r' [] :=
              iUn r' (Or.inl hrnotin)
            show ((elimRowsInv col rs M').1.getD r' []).getD col 0 = 0
            rw [huntouched]
            have : ent M' r' col = f - f * ent M col col := hEr col (by omega)
            rw [hone, mul_one, sub_self] at this
            exact this
          · exact iClr hflag r' h hr'c

lemma IdCols_swap (M : List (List ℚ)) (n col p : ℕ) (hlen : M.length = n)
    (hcol : col < n) (hp : p < n) (hcp : col ≤ p) (hId : IdCols M n col) :
    IdCols (swapRows M col p) n col := by
  intro i j hj hi
  rw [ent_swapRows M col p i j (by omega) (by omega)]
  by_cases h1 : i = p
  · rw [if_pos h1, hId col j hj hcol, if_neg (show ¬col = j by omega),
      if_neg (show ¬i = j by omega)]
  · rw [if_neg h1]
    by_cases h2 : i = col
    · rw [if_pos h2, hId p j hj hp, if_neg (show ¬p = j by omega),
      if_neg (show ¬i = j by omega)]
    · rw [if_neg h2]
      exact hId i j hj hi

/-- One Gauss-Jordan column of `inverse`, on a clean step. -/
lemma invStep_sem (A : List (List ℚ)) (n col : ℕ) (M M2 : List (List ℚ)) (flag : Bool)
    (hcol : col < n) (hWF : WF M n (n + n)) (hId : IdCols M n col)
    (hRel : RelA A n M)
    (hstep : invStep n col M = .ok (M2, flag)) (hflag : flag = true) :
    WF M2 n (n + n) ∧ IdCols M2 n (col + 1) ∧ RelA A n M2 := by
  have hlen : M.length = n := hWF.1
  obtain ⟨hp1, hp2⟩ := argmaxAbs_bounds M col n hcol
  set p := argmaxAbs M col n with hpdef
  by_cases hpiv : |ent M p col| < eps
  · exact absurd hstep (by unfold invStep; rw [← hpdef, if_pos hpiv]; simp)
  · have hstep' : Except.ok (ε := Err) (elimRowsInv col (List.range n)
        ((if p ≠ col then swapRows M col p else M).set col
          (rowDivFrom ((if p ≠ col then swapRows M col p else M).getD col []) 0
            (ent (if p ≠ col then swapRows M col p else M) col col)))) =
          .ok (M2, flag) := by
      rw [← hstep]
      unfold invStep
      rw [← hpdef, if_neg hpiv]
    set M1 := if p ≠ col then swapRows M col p else M with hM1
    have hWF1 : WF M1 n (n + n) := by
      rw [hM1]; split
      · exact WF_swapRows M n (n + n) col p hWF hcol hp2
      · exact hWF
    have hlen1 : M1.length = n := hWF1.1
    have hId1 : IdCols M1 n col := by
      rw [hM1]; split
      · exact IdCols_swap M n col p hlen hcol hp2 hp1 hId
      · exact hId
    have hRel1 : RelA A n M1 := by
      rw [hM1]; split
      · exact RelA_swap A n col p M hlen hcol hp2 hRel
      · exact hRel
    have hpivval : ent M1 col col = ent M p col := by
      rw [hM1]; split
      · next hne =>
        rw [ent_swapRows M col p col col (by omega) (by omega)]
        rw [if_neg (fun h => hne h.symm), if_pos rfl]
      · next hne =>
        have : p = col := by omega
        rw [this]
    have hpivne : ent M1 col col ≠ 0 := by
      rw [hpivval]
      intro h
      rw [h] at hpiv
      exact hpiv (by simpa using eps_pos)
    have hrowlen1 : (M1.getD col []).length = n + n :=
      WF_ent_getD M1 n (n + n) col hWF1 hcol
    set M2' := M1.set col (rowDivFrom (M1.getD col []) 0 (ent M1 col col)) with hM2'
    have hWF2 : WF M2' n (n + n) := by
      apply WF_set _ _ _ _ _ hWF1
      rw [length_rowDivFrom, hrowlen1]
    have hent2 : ∀ i j, i ≠ col → ent M2' i j = ent M1 i j := by
      intro i j hi
      rw [hM2', ent_set_row _ _ _ _ _ (by omega), if_neg (fun h => hi h.symm)]
    have hentcol2 : ∀ j, j < n + n →
        ent M2' col j = ent M1 col j / ent M1 col col := by
      intro j hj
      rw [hM2', ent_set_row _ _ _ _ _ (by omega), if_pos rfl,
        getD_rowDivFrom _ _ _ _ (by omega), if_pos (Nat.zero_le j)]
      rfl
    have hone2 : ent M2' col col = 1 := by
      rw [hentcol2 col (by omega), div_self hpivne]
    have hId2 : IdCols M2' n col := by
      intro i j hj hi
      by_cases hic : i = col
      · rw [hic, hentcol2 j (by omega), hId1 col j hj hcol,
          if_neg (show ¬col = j by omega), zero_div]
      · rw [hent2 i j hic]
        exact hId1 i j hj hi
    have hRel2 : RelA A n M2' :=
      RelA_scale A n col M1 (ent M1 col col) hWF1 hcol hRel1
    obtain ⟨iWF, iRel, iId, iUn, iOne, iClr⟩ :=
      elimRowsInv_sem A n col hcol (List.range n) M2' hWF2
        (fun r hr => List.mem_range.mp hr) (List.nodup_range n) hRel2 hId2 hone2
    have hME : elimRowsInv col (List.range n) M2' = (M2, flag) := by
      have := Except.ok.inj hstep'
      rw [← this]
    have hM2eq : (elimRowsInv col (List.range n) M2').1 = M2 := by rw [hME]
    have hflageq : (elimRowsInv col (List.range n) M2').2 = true := by rw [hME, hflag]
    rw [hM2eq] at iWF iRel iId iOne
    rw [hM2eq] at iClr
    refine ⟨iWF, ?_, iRel⟩
    intro i j hj hi
    by_cases hjc : j = col
    · subst hjc
      by_cases hic : i = j
      · rw [if_pos hic, hic]
        exact iOne
      · rw [if_neg hic]
        exact iClr hflageq i (List.mem_range.mpr hi) hic
    · exact iId i j (by omega) hi

/-- Gauss-Jordan over the remaining columns: on a clean successful run the
left half ends as the identity while `R · A = L` is maintained. -/
lemma colLoop_inv_sem (A : List (List ℚ)) (n : ℕ) :
    ∀ (k col : ℕ) (M : List (List ℚ)) (acc : Bool) (Mf : List (List ℚ)),
      colLoop (invStep n) (List.range' col k) M acc = .ok (Mf, true) →
      col + k = n →
      WF M n (n + n) → IdCols M n col → RelA A n M →
      WF Mf n (n + n) ∧ IdCols Mf n n ∧ RelA A n Mf := by
  intro k
  induction k with
  | zero =>
    intro col M acc Mf hrun hcol hWF hId hRel
    have : Except.ok (ε := Err) (M, acc) = .ok (Mf, true) := hrun
    obtain ⟨h1, h2⟩ := Prod.mk.injEq .. ▸ Except.ok.inj this
    have hn : col = n := by omega
    subst hn
    subst h1
    exact ⟨hWF, hId, hRel⟩
  | succ k ih =>
    intro col M acc Mf hrun hcol hWF hId hRel
    rw [List.range'_succ] at hrun
    have hcoln : col < n := by omega
    rcases hms : invStep n col M with e | r
    · rw [show colLoop (invStep n) (col :: List.range' (col + 1) k) M acc =
          .error e from by simp only [colLoop]; rw [hms]] at hrun
      exact absurd hrun (by simp)
    · have hrun' : colLoop (invStep n) (List.range' (col + 1) k) r.1 (acc && r.2) =
          .ok (Mf, true) := by
        rw [show colLoop (invStep n) (col :: List.range' (col + 1) k) M acc =
          colLoop (invStep n) (List.range' (col + 1) k) r.1 (acc && r.2) from
          by simp only [colLoop]; rw [hms]] at hrun
        exact hrun
      have hfl : r.2 = true :=
        (Bool.and_eq_true .. ▸ colLoop_flag (invStep n) _ _ _ _ hrun').2
      obtain ⟨jWF, jId, jRel⟩ :=
        invStep_sem A n col M r.1 r.2 hcoln hWF hId hRel (by rw [hms]) hfl
      exact ih (col + 1) r.1 (acc && r.2) Mf hrun' (by omega) jWF jId jRel

lemma identity_row (n i : ℕ) (hi : i < n) :
    (identity n).getD i [] = (List.range n).map (fun j => if j = i then (1 : ℚ) else 0) := by
  unfold identity
  rw [getD_rangeMapRow _ _ _ hi]

lemma ent_identity (n i k : ℕ) (hi : i < n) (hk : k < n) :
    ent (identity n) i k = if k = i then (1 : ℚ) else 0 := by
  show ((identity n).getD i []).getD k 0 = _
  rw [identity_row n i hi, getD_rangeMap _ _ _ hk]

lemma identity_WF (n : ℕ) : WF (identity n) n n := by
  constructor
  · simp [identity]
  · intro row hrow
    simp only [identity, List.mem_map] at hrow
    obtain ⟨i, _, hrow⟩ := hrow
    rw [← hrow]
    simp

lemma augInv_WF (A : List (List ℚ)) (n : ℕ) (hA : shape A = .ok (n, n)) :
    WF (augInv A n) n (n + n) := by
  obtain ⟨⟨hlen, hrows⟩, hn, -⟩ := (shape_ok_iff A n n).1 hA
  constructor
  · simp [augInv]
  · intro row hrow
    simp only [augInv, List.mem_map] at hrow
    obtain ⟨i, hi, hrow⟩ := hrow
    rw [List.mem_range] at hi
    rw [← hrow, List.length_append, WF_ent_getD A n n i ⟨hlen, hrows⟩ hi,
      WF_ent_getD (identity n) n n i (identity_WF n) hi]

lemma ent_augInv (A : List (List ℚ)) (n i j : ℕ) (hA : shape A = .ok (n, n))
    (hi : i < n) :
    (j < n → ent (augInv A n) i j = ent A i j) ∧
    (∀ k, k < n → ent (augInv A n) i (n + k) = if k = i then (1 : ℚ) else 0) := by
  obtain ⟨⟨hlen, hrows⟩, hn, -⟩ := (shape_ok_iff A n n).1 hA
  have hrowA : (A.getD i []).length = n := WF_ent_getD A n n i ⟨hlen, hrows⟩ hi
  have hrow : (augInv A n).getD i [] = A.getD i [] ++ (identity n).getD i [] := by
    unfold augInv
    rw [getD_rangeMapRow _ _ _ hi]
  constructor
  · intro hj
    show ((augInv A n).getD i []).getD j 0 = _
    rw [hrow, getD_of_lt _ _ _ (by rw [List.length_append, hrowA]; omega),
      List.getElem_append_left (by omega),
      ← getD_of_lt _ _ _ (show j < (A.getD i []).length by omega)]
    rfl
  · intro k hk
    have hrowI : ((identity n).getD i []).length = n :=
      WF_ent_getD (identity n) n n i (identity_WF n) hi
    show ((augInv A n).getD i []).getD (n + k) 0 = _
    rw [hrow, getD_of_lt _ _ _ (by rw [List.length_append, hrowA, hrowI]; omega),
      List.getElem_append_right (by omega)]
    have h1 : (identity n).getD i [] =
        (List.range n).map (fun j => if j = i then (1 : ℚ) else 0) := identity_row n i hi
    have h2 : n + k - (A.getD i []).length = k := by omega
    rw [← getD_of_lt _ _ _ (show n + k - (A.getD i []).length <
        ((identity n).getD i []).length by omega), h2, h1, getD_rangeMap _ _ _ hk]

lemma augInv_RelA (A : List (List ℚ)) (n : ℕ) (hA : shape A = .ok (n, n)) :
    RelA A n (augInv A n) := by
  intro i j hi hj
  have h1 : ∑ k in Finset.range n, ent (augInv A n) i (n + k) * ent A k j =
      ∑ k in Finset.range n, (if k = i then ent A k j else 0) := by
    apply Finset.sum_congr rfl
    intro k hk
    rw [Finset.mem_range] at hk
    rw [(ent_augInv A n i j hA hi).2 k hk]
    by_cases h : k = i
    · rw [if_pos h, if_pos h, one_mul]
    · rw [if_neg h, if_neg h, zero_mul]
  rw [h1, Finset.sum_ite_eq' (Finset.range n) i (fun k => ent A k j),
    if_pos (Finset.mem_range.mpr hi), (ent_augInv A n i j hA hi).1 hj]

lemma ent_dropHalf (Mf : List (List ℚ)) (n i j : ℕ) (hWF : WF Mf n (n + n))
    (hi : i < n) (hj : j < n) :
    ent (Mf.map (fun row => row.drop n)) i j = ent Mf i (n + j) := by
  have hlen : Mf.length = n := hWF.1
  have hrowlen : (Mf.getD i []).length = n + n := WF_ent_getD Mf n (n + n) i hWF hi
  have h1 : (Mf.map (fun row => row.drop n)).getD i [] = (Mf.getD i []).drop n := by
    rw [getD_of_lt _ _ _ (by simpa [hlen] using hi), List.getElem_map,
      getD_of_lt _ _ _ (by omega)]
  show ((Mf.map (fun row => row.drop n)).getD i []).getD j 0 = _
  rw [h1, getD_of_lt _ _ _ (by rw [List.length_drop, hrowlen]; omega),
    List.getElem_drop, ← getD_of_lt _ _ _ (show n + j < (Mf.getD i []).length by omega)]
  rfl

lemma dropHalf_shape (Mf : List (List ℚ)) (n : ℕ) (hWF : WF Mf n (n + n)) (hn : 0 < n) :
    shape (Mf.map (fun row => row.drop n)) = .ok (n, n) := by
  apply (shape_ok_iff _ n n).2
  refine ⟨⟨by simp [hWF.1], ?_⟩, hn, hn⟩
  intro row hrow
  simp only [List.mem_map] at hrow
  obtain ⟨row0, hrow0, hrow⟩ := hrow
  rw [← hrow, List.length_drop, hWF.2 row0 hrow0]
  omega

/-- Left inverse to right inverse, transported through Mathlib's square
matrices over `ℚ`. -/
lemma leftInv_to_rightInv (A Mf : List (List ℚ)) (n : ℕ)
    (hRel : RelA A n Mf) (hId : IdCols Mf n n) :
    ∀ i j, i < n → j < n →
      ∑ k in Finset.range n, ent A i k * ent Mf k (n + j) =
        (if i = j then (1 : ℚ) else 0) := by
  set RMat : Matrix (Fin n) (Fin n) ℚ := fun i j => ent Mf i.1 (n + j.1) with hR
  set AMat : Matrix (Fin n) (Fin n) ℚ := fun i j => ent A i.1 j.1 with hAm
  have hRA : RMat * AMat = 1 := by
    ext i j
    rw [Matrix.mul_apply, Matrix.one_apply]
    have h1 : ∑ k : Fin n, RMat i k * AMat k j =
        ∑ k in Finset.range n, ent Mf i.1 (n + k) * ent A k j.1 := by
      rw [← Fin.sum_univ_eq_sum_range (fun k => ent Mf i.1 (n + k) * ent A k j.1) n]
    rw [h1, hRel i.1 j.1 i.isLt j.isLt, hId i.1 j.1 j.isLt i.isLt]
    by_cases h : i = j
    · rw [if_pos h, if_pos (by rw [h])]
    · rw [if_neg (fun hc => h (Fin.ext hc)), if_neg h]
  have hAR : AMat * RMat = 1 := Matrix.mul_eq_one_comm.mp hRA
  intro i j hi hj
  have := congrFun (congrFun hAR ⟨i, hi⟩) ⟨j, hj⟩
  rw [Matrix.mul_apply, Matrix.one_apply] at this
  have h1 : ∑ k : Fin n, AMat ⟨i, hi⟩ k * RMat k ⟨j, hj⟩ =
      ∑ k in Finset.range n, ent A i k * ent Mf k (n + j) := by
    rw [← Fin.sum_univ_eq_sum_range (fun k => ent A i k * ent Mf k (n + j)) n]
  rw [h1] at this
  rw [this]
  by_cases h : i = j
  · rw [if_pos (show (⟨i, hi⟩ : Fin n) = ⟨j, hj⟩ from Fin.ext h), if_pos h]
  · rw [if_neg (fun hc => h (Fin.mk.injEq .. ▸ hc)), if_neg h]

/-- C2 (amended with the clean-run condition): when the Gauss-Jordan run
of `inverse` succeeds with every skipped elimination factor exactly zero,
`matmul(A, inverse(A))` is exactly the n×n identity. -/
theorem inverse_right_inverse (A : List (List ℚ)) (n : ℕ) (Mf : List (List ℚ))
    (hA : shape A = .ok (n, n))
    (hrun : colLoop (invStep n) (List.range n) (augInv A n) true = .ok (Mf, true)) :
    inverse A = .ok (Mf.map (fun row => row.drop n)) ∧
    matmul A (Mf.map (fun row => row.drop n)) = .ok (identity n) := by
  obtain ⟨⟨hlen, hrows⟩, hn, -⟩ := (shape_ok_iff A n n).1 hA
  have hrun' : colLoop (invStep n) (List.range' 0 n) (augInv A n) true =
      .ok (Mf, true) := by
    rw [← List.range_eq_range']
    exact hrun
  obtain ⟨fWF, fId, fRel⟩ :=
    colLoop_inv_sem A n n 0 (augInv A n) true Mf hrun' (by omega)
      (augInv_WF A n hA) (fun i j hj _ => absurd hj (Nat.not_lt_zero j))
      (augInv_RelA A n hA)
  have hprod := leftInv_to_rightInv A Mf n fRel fId
  constructor
  · unfold inverse
    rw [hA]
    show (if n ≠ n then Except.error Err.ShapeMismatch
      else match colLoop (invStep n) (List.range n) (augInv A n) true with
        | Except.error e => Except.error e
        | Except.ok r => Except.ok (r.1.map (fun row => row.drop n))) = _
    rw [if_neg (by omega), hrun]
  · unfold matmul
    rw [hA, dropHalf_shape Mf n fWF hn]
    show (if n ≠ n then Except.error Err.DimensionMismatch
      else Except.ok ((List.range n).map (fun i => (List.range n).map (fun j =>
        ∑ k in Finset.range n,
          ent A i k * ent (Mf.map (fun row => row.drop n)) k j)))) = _
    rw [if_neg (by omega)]
    congr 1
    unfold identity
    apply List.map_congr_left
    intro i hi
    rw [List.mem_range] at hi
    apply List.map_congr_left
    intro j hj
    rw [List.mem_range] at hj
    have hs : ∑ k in Finset.range n,
        ent A i k * ent (Mf.map (fun row => row.drop n)) k j =
          ∑ k in Finset.range n, ent A i k * ent Mf k (n + j) := by
      apply Finset.sum_congr rfl
      intro k hk
      rw [Finset.mem_range] at hk
      rw [ent_dropHalf Mf n k j fWF hk hj]
    rw [hs, hprod i j hi hj]
    by_cases h : i = j
    · rw [if_pos h, if_pos h.symm]
    · rw [if_neg h, if_neg (fun hc => h hc.symm)]

/-- Witness for C2 at a concrete invertible matrix: `inverse([[2,0],[0,2]])`
is `[[1/2,0],[0,1/2]]` and multiplies back to the identity. -/
theorem inverse_right_inverse_witness :
    inverse [[2, 0], [0, 2]] = .ok [[1 / 2, 0], [0, 1 / 2]] ∧
    matmul [[2, 0], [0, 2]] [[1 / 2, 0], [0, 1 / 2]] = .ok (identity 2) := by
  have h := inverse_right_inverse [[2, 0], [0, 2]] 2
    [[1, 0, 1 / 2, 0], [0, 1, 0, 1 / 2]]
    (by with_unfolding_all rfl) (by with_unfolding_all rfl)
  have hdrop : ([[1, 0, 1 / 2, 0], [0, 1, 0, 1 / 2]] : List (List ℚ)).map
      (fun row => row.drop 2) = [[1 / 2, 0], [0, 1 / 2]] := by with_unfolding_all rfl
  refine ⟨?_, ?_⟩
  · rw [h.1, hdrop]
  · have h2 := h.2
    rwa [hdrop] at h2

/-!
## `det` agrees with the mathematical determinant on clean runs (claim C5)
-/

/-- The first n×n block of a list matrix, as a Mathlib matrix. -/
def matFin (n : ℕ) (M : List (List ℚ)) : Matrix (Fin n) (Fin n) ℚ :=
  fun i j => ent M i.1 j.1

lemma matFin_swap_det (M : List (List ℚ)) (n col p : ℕ) (hlen : M.length = n)
    (hcol : col < n) (hp : p < n) (hne : col ≠ p) :
    Matrix.det (matFin n (swapRows M col p)) = -Matrix.det (matFin n M) := by
  have hsub : matFin n (swapRows M col p) =
      (matFin n M).submatrix (Equiv.swap ⟨col, hcol⟩ ⟨p, hp⟩) id := by
    ext i j
    show ent (swapRows M col p) i.1 j.1 = ent M (Equiv.swap ⟨col, hcol⟩ ⟨p, hp⟩ i).1 j.1
    rw [ent_swapRows M col p i.1 j.1 (by omega) (by omega)]
    by_cases hip : i.1 = p
    · rw [if_pos hip]
      have h2 : Equiv.swap (⟨col, hcol⟩ : Fin n) ⟨p, hp⟩ i = ⟨col, hcol⟩ := by
        rw [show i = (⟨p, hp⟩ : Fin n) from Fin.ext hip]
        exact Equiv.swap_apply_right _ _
      rw [h2]
    · rw [if_neg hip]
      by_cases hic : i.1 = col
      · rw [if_pos hic]
        have h2 : Equiv.swap (⟨col, hcol⟩ : Fin n) ⟨p, hp⟩ i = ⟨p, hp⟩ := by
          rw [show i = (⟨col, hcol⟩ : Fin n) from Fin.ext hic]
          exact Equiv.swap_apply_left _ _
        rw [h2]
      · rw [if_neg hic]
        have h2 : Equiv.swap (⟨col, hcol⟩ : Fin n) ⟨p, hp⟩ i = i :=
          Equiv.swap_apply_of_ne_of_ne (fun h => hic (congrArg Fin.val h))
            (fun h => hip (congrArg Fin.val h))
        rw [h2]
  rw [hsub, Matrix.det_permute,
    Equiv.Perm.sign_swap (fun h => hne (congrArg Fin.val h))]
  push_cast
  ring

lemma matFin_sub_det (M : List (List ℚ)) (n col r : ℕ) (f : ℚ) (hWF : WF M n n)
    (hcol : col < n) (hr : r < n) (hne : r ≠ col)
    (hzc : ∀ j, j < col → ent M col j = 0) :
    Matrix.det (matFin n (M.set r (rowSubFrom (M.getD r []) (M.getD col []) col f))) =
      Matrix.det (matFin n M) := by
  have hlen : M.length = n := hWF.1
  have hrowlen : (M.getD r []).length = n := WF_ent_getD M n n r hWF hr
  have hEr : ∀ j, j < n →
      ent (M.set r (rowSubFrom (M.getD r []) (M.getD col []) col f)) r j =
        ent M r j - f * ent M col j := by
    intro j hj
    rw [ent_set_row _ _ _ _ _ (by omega), if_pos rfl,
      getD_rowSubFrom _ _ _ _ _ (by omega)]
    by_cases hcj : col ≤ j
    · rw [if_pos hcj]; rfl
    · rw [if_neg hcj]
      have h1 : ent M r j = (M.getD r []).getD j 0 := rfl
      rw [← h1, hzc j (by omega), mul_zero, sub_zero]
  have hupd : matFin n (M.set r (rowSubFrom (M.getD r []) (M.getD col []) col f)) =
      (matFin n M).updateRow ⟨r, hr⟩
        ((matFin n M) ⟨r, hr⟩ + (-f) • (matFin n M) ⟨col, hcol⟩) := by
    ext i j
    by_cases hir : i = (⟨r, hr⟩ : Fin n)
    · rw [hir, Matrix.updateRow_self]
      show ent (M.set r (rowSubFrom (M.getD r []) (M.getD col []) col f)) r j.1 = _
      rw [hEr j.1 j.isLt]
      show _ = matFin n M ⟨r, hr⟩ j + (-f) * matFin n M ⟨col, hcol⟩ j
      show _ = ent M r j.1 + (-f) * ent M col j.1
      ring
    · rw [Matrix.updateRow_ne hir]
      show ent (M.set r (rowSubFrom (M.getD r []) (M.getD col []) col f)) i.1 j.1 =
        ent M i.1 j.1
      rw [ent_set_row _ _ _ _ _ (by omega),
        if_neg (fun h => hir (Fin.ext h.symm))]
  rw [hupd, Matrix.det_updateRow_add_smul_self _
    (fun h => hne (congrArg Fin.val h)) (-f)]

/-- Semantic description of `det`'s inner elimination fold: shape, the
determinant of the n×n block and the already-reduced columns are
preserved; listed rows are the only ones touched; on a clean run the
pivot column is exactly cleared below the pivot. -/
lemma elimRowsDet_sem (n col : ℕ) (piv : ℚ) (hcol : col < n) (hpivne : piv ≠ 0) :
    ∀ (rs : List ℕ) (M : List (List ℚ)),
      WF M n n →
      (∀ r ∈ rs, col < r ∧ r < n) →
      rs.Nodup →
      LowerZero M n col →
      ent M col col = piv →
      WF (elimRowsDet col piv rs M).1 n n ∧
      Matrix.det (matFin n (elimRowsDet col piv rs M).1) = Matrix.det (matFin n M) ∧
      LowerZero (elimRowsDet col piv rs M).1 n col ∧
      (∀ i, i ∉ rs → (elimRowsDet col piv rs M).1.getD i [] = M.getD i []) ∧
      ((elimRowsDet col piv rs M).2 = true →
        ∀ r ∈ rs, ent (elimRowsDet col piv rs M).1 r col = 0) := by
  intro rs
  induction rs with
  | nil =>
    intro M hWF _ _ hLZ hpv
    exact ⟨hWF, rfl, hLZ, fun i _ => rfl, fun _ r hr =>
      absurd hr (List.not_mem_nil r)⟩
  | cons r rs ih =>
    intro M hWF hbounds hnd hLZ hpv
    have hr : col < r ∧ r < n := hbounds r (by simp)
    have hlen : M.length = n := hWF.1
    have hrowlen : (M.getD r []).length = n := WF_ent_getD M n n r hWF hr.2
    have hndtail : rs.Nodup := (List.nodup_cons.mp hnd).2
    have hrnotin : r ∉ rs := (List.nodup_cons.mp hnd).1
    have hboundstail : ∀ r' ∈ rs, col < r' ∧ r' < n := fun r' h => hbounds r' (by simp [h])
    by_cases hskip : |ent M r col / piv| < eps
    · have hu : elimRowsDet col piv (r :: rs) M =
          ((elimRowsDet col piv rs M).1,
            decide (ent M r col / piv = 0) && (elimRowsDet col piv rs M).2) := by
        simp only [elimRowsDet]
        rw [if_pos hskip]
      obtain ⟨iWF, iDet, iLZ, iUn, iClr⟩ := ih M hWF hboundstail hndtail hLZ hpv
      rw [hu]
      refine ⟨iWF, iDet, iLZ, ?_, ?_⟩
      · intro i hi
        exact iUn i (fun h => hi (by simp [h]))
      · intro hflag r' hr'
        simp only [Bool.and_eq_true, decide_eq_true_eq] at hflag
        rcases List.mem_cons.mp hr' with h | h
        · subst h
          have huntouched : (elimRowsDet col piv rs M).1.getD r' [] = M.getD r' [] :=
            iUn r' hrnotin
          show ((elimRowsDet col piv rs M).1.getD r' []).getD col 0 = 0
          rw [huntouched]
          have hz : ent M r' col = 0 := by
            rcases (div_eq_zero_iff.mp hflag.1) with h | h
            · exact h
            · exact absurd h hpivne
          exact hz
        · exact iClr hflag.2 r' h
    · have hu : elimRowsDet col piv (r :: rs) M =
          elimRowsDet col piv rs
            (M.set r (rowSubFrom (M.getD r []) (M.getD col [])
              col (ent M r col / piv))) := by
        simp only [elimRowsDet]
        rw [if_neg hskip]
      set f := ent M r col / piv with hf
      set M' := M.set r (rowSubFrom (M.getD r []) (M.getD col []) col f) with hM'
      have hWF' : WF M' n n := by
        apply WF_set _ _ _ _ _ hWF
        rw [length_rowSubFrom, hrowlen]
      have hEr : ∀ j, j < n → ent M' r j = ent M r j - f * ent M col j := by
        intro j hj
        rw [hM', ent_set_row _ _ _ _ _ (by omega), if_pos rfl,
          getD_rowSubFrom _ _ _ _ _ (by omega)]
        by_cases hcj : col ≤ j
        · rw [if_pos hcj]; rfl
        · rw [if_neg hcj]
          have h1 : ent M r j = (M.getD r []).getD j 0 := rfl
          have h2 : ent M col j = 0 := hLZ col j (by omega) (by omega) (by omega)
          rw [← h1, h2, mul_zero, sub_zero]
      have hother : ∀ i j, i ≠ r → ent M' i j = ent M i j := by
        intro i j hi
        rw [hM', ent_set_row _ _ _ _ _ (by omega), if_neg (fun h => hi h.symm)]
      have hLZ' : LowerZero M' n col := by
        intro r' j hj hjr hr'
        by_cases hir : r' = r
        · rw [hir, hEr j (by omega)]
          have h2 : ent M col j = 0 := hLZ col j hj (by omega) (by omega)
          rw [hLZ r j hj (by omega) hr.2, h2, mul_zero, sub_zero]
        · rw [hother r' j hir]
          exact hLZ r' j hj hjr hr'
      have hpv' : ent M' col col = piv := by
        rw [hother col col (Ne.symm (by omega))]
        exact hpv
      have hDet' : Matrix.det (matFin n M') = Matrix.det (matFin n M) := by
        rw [hM']
        apply matFin_sub_det M n col r f hWF hcol hr.2 (by omega)
        intro j hj
        exact hLZ col j hj (by omega) (by omega)
      obtain ⟨iWF, iDet, iLZ, iUn, iClr⟩ := ih M' hWF' hboundstail hndtail hLZ' hpv'
      rw [hu]
      refine ⟨iWF, by rw [iDet, hDet'], iLZ, ?_, ?_⟩
      · intro i hi
        have h1 : i ≠ r := fun h => hi (by simp [h])
        have h2 : i ∉ rs := fun h => hi (by simp [h])
        rw [iUn i h2, hM', getD_set_row, if_neg (fun h => h1 h.1.symm)]
      · intro hflag r' hr'
        rcases List.mem_cons.mp hr' with h | h
        · subst h
          have huntouched : (elimRowsDet col piv rs M').1.getD r' [] = M'.getD r' [] :=
            iUn r' hrnotin
          show ((elimRowsDet col piv rs M').1.getD r' []).getD col 0 = 0
          rw [huntouched]
          have h3 : ent M' r' col = ent M r' col - f * ent M col col := hEr col hcol
          rw [hpv, hf, div_mul_cancel₀ _ hpivne, sub_self] at h3
          exact h3
        · exact iClr hflag r' h

/-- `detGo` on a clean run: the final matrix is upper triangular, obtained
by determinant-tracked row operations, and the returned value is the
running sign and pivot product. -/
lemma detGo_run (n : ℕ) :
    ∀ (k col : ℕ) (M : List (List ℚ)) (sign dv : ℚ),
      col + k = n → WF M n n → LowerZero M n col →
      (detGo n (List.range' col k) M sign dv).2 = true →
      ∃ Mf s, (s = 1 ∨ s = -1) ∧ WF Mf n n ∧ LowerZero Mf n n ∧
        (∀ i, i < col → ∀ j, ent Mf i j = ent M i j) ∧
        Matrix.det (matFin n Mf) = s * Matrix.det (matFin n M) ∧
        (detGo n (List.range' col k) M sign dv).1 =
          sign * s * (dv * ∏ j in Finset.Ico col n, ent Mf j j) := by
  intro k
  induction k with
  | zero =>
    intro col M sign dv hcol hWF hLZ _
    refine ⟨M, 1, Or.inl rfl, hWF, ?_, fun i _ j => rfl, by rw [one_mul], ?_⟩
    · intro r j hj hjr hr
      exact hLZ r j (by omega) hjr hr
    · show sign * dv = _
      rw [show col = n from by omega, Finset.Ico_self, Finset.prod_empty]
      ring
  | succ k ih =>
    intro col M sign dv hcol hWF hLZ hflag
    rw [List.range'_succ] at hflag ⊢
    have hlen : M.length = n := hWF.1
    have hcoln : col < n := by omega
    obtain ⟨hp1, hp2⟩ := argmaxAbs_bounds M col n hcoln
    by_cases hpiv : |ent M (argmaxAbs M col n) col| < eps
    · have hu : detGo n (col :: List.range' (col + 1) k) M sign dv = (0, false) := by
        simp only [detGo]
        rw [if_pos hpiv]
      rw [hu] at hflag
      exact absurd hflag (by simp)
    · have hu : detGo n (col :: List.range' (col + 1) k) M sign dv =
          ((detGo n (List.range' (col + 1) k)
              (elimRowsDet col
                (ent (if argmaxAbs M col n ≠ col then
                    swapRows M col (argmaxAbs M col n) else M) col col)
                (List.range' (col + 1) (n - (col + 1)))
                (if argmaxAbs M col n ≠ col then
                  swapRows M col (argmaxAbs M col n) else M)).1
              (if argmaxAbs M col n ≠ col then -sign else sign)
              (dv * ent (if argmaxAbs M col n ≠ col then
                  swapRows M col (argmaxAbs M col n) else M) col col)).1,
            (elimRowsDet col
                (ent (if argmaxAbs M col n ≠ col then
                    swapRows M col (argmaxAbs M col n) else M) col col)
                (List.range' (col + 1) (n - (col + 1)))
                (if argmaxAbs M col n ≠ col then
                  swapRows M col (argmaxAbs M col n) else M)).2 &&
              (detGo n (List.range' (col + 1) k)
                (elimRowsDet col
                  (ent (if argmaxAbs M col n ≠ col then
                      swapRows M col (argmaxAbs M col n) else M) col col)
                  (List.range' (col + 1) (n - (col + 1)))
                  (if argmaxAbs M col n ≠ col then
                    swapRows M col (argmaxAbs M col n) else M)).1
                (if argmaxAbs M col n ≠ col then -sign else sign)
                (dv * ent (if argmaxAbs M col n ≠ col then
                    swapRows M col (argmaxAbs M col n) else M) col col)).2) := by
        simp only [detGo]
        rw [if_neg hpiv]
      set p := argmaxAbs M col n with hpdef
      set M1 := if p ≠ col then swapRows M col p else M with hM1
      have hWF1 : WF M1 n n := by
        rw [hM1]; split
        · exact WF_swapRows M n n col p hWF hcoln hp2
        · exact hWF
      have hLZ1 : LowerZero M1 n col := by
        rw [hM1]; split
        · exact LowerZero_swap M n col p hlen hcoln hp2 hp1 hLZ
        · exact hLZ
      have hpivval : ent M1 col col = ent M p col := by
        rw [hM1]; split
        · next hne =>
          rw [ent_swapRows M col p col col (by omega) (by omega)]
          rw [if_neg (fun h => hne h.symm), if_pos rfl]
        · next hne =>
          have : p = col := by omega
          rw [this]
      have hpivne : ent M1 col col ≠ 0 := by
        rw [hpivval]
        intro h
        rw [h] at hpiv
        exact hpiv (by simpa using eps_pos)
      have hrange : n - (col + 1) = k := by omega
      obtain ⟨iWF, iDet, iLZ, iUn, iClr⟩ :=
        elimRowsDet_sem n col (ent M1 col col) hcoln hpivne
          (List.range' (col + 1) (n - (col + 1))) M1 hWF1
          (fun r hr => by rw [List.mem_range'_1] at hr; omega)
          (List.nodup_range' _ _) hLZ1 rfl
      set E := (elimRowsDet col (ent M1 col col)
        (List.range' (col + 1) (n - (col + 1))) M1).1 with hE
      rw [hu] at hflag ⊢
      simp only [Bool.and_eq_true] at hflag
      have hLZE : LowerZero E n (col + 1) := by
        intro r j hj hjr hr
        by_cases hjc : j = col
        · subst hjc
          apply iClr hflag.1 r
          rw [List.mem_range'_1]
          omega
        · exact iLZ r j (by omega) hjr hr
      obtain ⟨Mf, s', hs', fWF, fLZ, fPres, fDet, fVal⟩ :=
        ih (col + 1) E (if p ≠ col then -sign else sign) (dv * ent M1 col col)
          (by omega) iWF hLZE hflag.2
      have hdetM1 : Matrix.det (matFin n M1) =
          (if p ≠ col then (-1 : ℚ) else 1) * Matrix.det (matFin n M) := by
        rw [hM1]
        split
        · next hne =>
          rw [matFin_swap_det M n col p hlen hcoln hp2 (fun h => hne h.symm)]
          ring
        · rw [one_mul]
      have hMfcol : ent Mf col col = ent M1 col col := by
        have h1 : ∀ j, ent Mf col j = ent E col j := fun j => fPres col (by omega) j
        have h2 : E.getD col [] = M1.getD col [] := by
          apply iUn
          rw [List.mem_range'_1]
          omega
        rw [h1 col]
        show (E.getD col []).getD col 0 = _
        rw [h2]
        rfl
      refine ⟨Mf, s' * (if p ≠ col then (-1 : ℚ) else 1), ?_, fWF, fLZ, ?_, ?_, ?_⟩
      · rcases hs' with h | h <;> rw [h] <;> split
        · exact Or.inr (by ring)
        · exact Or.inl (by ring)
        · exact Or.inl (by ring)
        · exact Or.inr (by ring)
      · intro i hi j
        rw [fPres i (by omega) j]
        have h2 : E.getD i [] = M1.getD i [] := by
          apply iUn
          rw [List.mem_range'_1]
          omega
        have h3 : ent E i j = ent M1 i j := by
          show (E.getD i []).getD j 0 = _
          rw [h2]
          rfl
        rw [h3, hM1]
        split
        · next hne =>
          rw [ent_swapRows M col p i j (by omega) (by omega),
            if_neg (by omega), if_neg (by omega)]
        · rfl
      · rw [fDet, iDet, hdetM1]
        ring
      · show (detGo n (List.range' (col + 1) k) E
            (if p ≠ col then -sign else sign) (dv * ent M1 col col)).1 = _
        rw [fVal, Finset.prod_eq_prod_Ico_succ_bot hcoln, hMfcol]
        split
        · ring
        · ring

/-- On a clean run (no early singular return, every skipped factor zero)
`det` computes exactly the mathematical determinant of its input. -/
lemma det_eq_matrixDet (A : List (List ℚ)) (n : ℕ) (hA : shape A = .ok (n, n))
    (hclean : (detGo n (List.range n) A 1 1).2 = true) :
    det A = .ok (Matrix.det (matFin n A)) := by
  obtain ⟨hWF, hn, -⟩ := (shape_ok_iff A n n).1 hA
  have hclean' : (detGo n (List.range' 0 n) A 1 1).2 = true := by
    rw [← List.range_eq_range']
    exact hclean
  obtain ⟨Mf, s, hs, fWF, fLZ, -, fDet, fVal⟩ :=
    detGo_run n n 0 A 1 1 (by omega) hWF
      (fun r j hj _ _ => absurd hj (Nat.not_lt_zero j)) hclean'
  have htri : (matFin n Mf).BlockTriangular id := by
    intro i j hij
    exact fLZ i.1 j.1 j.isLt hij i.isLt
  have hdiag : Matrix.det (matFin n Mf) = ∏ j in Finset.Ico 0 n, ent Mf j j := by
    rw [Matrix.det_of_upperTriangular htri, ← Finset.range_eq_Ico,
      ← Fin.prod_univ_eq_prod_range (fun j => ent Mf j j) n]
    rfl
  have hval : (detGo n (List.range' 0 n) A 1 1).1 = Matrix.det (matFin n A) := by
    rw [fVal, one_mul, one_mul, ← hdiag, fDet]
    rcases hs with h | h <;> rw [h] <;> ring
  unfold det
  rw [hA]
  show (if n ≠ n then Except.error Err.ShapeMismatch
    else Except.ok (detGo n (List.range n) A 1 1).1) = _
  rw [if_neg (by omega), List.range_eq_range', hval]

/-- C5 (amended with the clean-run condition): whenever the elimination
runs on both `A` and `transpose(A)` complete every column with a pivot at
or above the tolerance and skip only exactly-zero factors, the two
determinants agree. -/
theorem det_transpose_eq (A T : List (List ℚ)) (n : ℕ)
    (hA : shape A = .ok (n, n)) (hT : transpose A = .ok T)
    (hcA : (detGo n (List.range n) A 1 1).2 = true)
    (hcT : (detGo n (List.range n) T 1 1).2 = true) :
    det A = det T := by
  obtain ⟨⟨hlen, hrows⟩, hn, -⟩ := (shape_ok_iff A n n).1 hA
  have hTval : T = (List.range n).map (fun j => (List.range n).map (fun i => ent A i j)) := by
    have : transpose A = .ok ((List.range n).map (fun j =>
        (List.range n).map (fun i => ent A i j))) := by
      unfold transpose
      rw [hA]
    rw [this] at hT
    exact (Except.ok.inj hT).symm
  have hTWF : WF T n n := by
    rw [hTval]
    constructor
    · simp
    · intro row hrow
      simp only [List.mem_map] at hrow
      obtain ⟨j, _, hrow⟩ := hrow
      rw [← hrow]
      simp
  have hTshape : shape T = .ok (n, n) := (shape_ok_iff T n n).2 ⟨hTWF, hn, hn⟩
  have hentT : ∀ i j, i < n → j < n → ent T i j = ent A j i := by
    intro i j hi hj
    rw [hTval]
    show (((List.range n).map (fun j => (List.range n).map
      (fun i => ent A i j))).getD i []).getD j 0 = _
    rw [getD_rangeMapRow _ _ _ hi, getD_rangeMap _ _ _ hj]
  have hmatT : matFin n T = (matFin n A).transpose := by
    ext i j
    rw [Matrix.transpose_apply]
    exact hentT i.1 j.1 i.isLt j.isLt
  rw [det_eq_matrixDet A n hA hcA, det_eq_matrixDet T n hTshape hcT, hmatT,
    Matrix.det_transpose]

/-- Witness for C5: for `[[1,2],[3,4]]` both runs are clean and the two
determinants agree (both are `-2`). -/
theorem det_transpose_eq_witness :
    det [[1, 2], [3, 4]] = det [[1, 3], [2, 4]] ∧
    det [[1, 2], [3, 4]] = .ok (-2) := by
  constructor
  · exact det_transpose_eq [[1, 2], [3, 4]] [[1, 3], [2, 4]] 2
      (by with_unfolding_all rfl) (by with_unfolding_all rfl)
      (by with_unfolding_all rfl) (by with_unfolding_all rfl)
  · with_unfolding_all rfl
